import Mathlib

/- Verification of the LSP client protocol engine of this repository
   (src/lspClient.ts).

   The byte stream is modelled as `List Char`: the TypeScript code converts
   every incoming Buffer to a JS string and afterwards works with string
   indices only (`substring`, `length`, `lastIndexOf`), so a character-list
   model matches those operations one for one (payloads in the claims are
   ASCII, where byte indices and UTF-16 indices coincide).  `JSON.parse` is
   an external library routine, not code of this repository; it is modelled
   as a parameter `parse : List Char → Option Msg` (a frame is enqueued only
   when it parses).  Timers (`setTimeout`/`clearTimeout`) and promise
   continuations are modelled explicitly in a small event machine; JS `Map`
   and `Set` are modelled as insertion-ordered association lists. -/

namespace LspMcp

/-- Simple prefix predicate on lists: `Pre s l` holds when `s` is an initial
    segment of `l`. -/
def Pre (s l : List α) : Prop := ∃ t, s ++ t = l

/-- Lookup in an insertion-ordered association list (JS `Map.get`). -/
def alookup [DecidableEq κ] (k : κ) : List (κ × β) → Option β
  | [] => none
  | (k', v) :: rest => if k' = k then some v else alookup k rest

/-- Update or append in an insertion-ordered association list (JS `Map.set`:
    an existing key keeps its position, a new key is appended). -/
def aset [DecidableEq κ] (k : κ) (v : β) : List (κ × β) → List (κ × β)
  | [] => [(k, v)]
  | (k', v') :: rest => if k' = k then (k, v) :: rest else (k', v') :: aset k v rest

/-- Removal from an association list (JS `Map.delete`). -/
def aerase [DecidableEq κ] (k : κ) : List (κ × β) → List (κ × β)
  | [] => []
  | (k', v') :: rest => if k' = k then rest else (k', v') :: aerase k rest

/-- Insertion into an insertion-ordered set (JS `Set.add`). -/
def sadd [DecidableEq α] (x : α) (s : List α) : List α :=
  if x ∈ s then s else s ++ [x]

/-- Removal from an insertion-ordered set (JS `Set.delete`). -/
def sdel [DecidableEq α] (x : α) (s : List α) : List α :=
  s.filter (fun y => y ≠ x)

/- ===================== Frame Decoder (handleData, lines 46-109) ========= -/

/-- The buffer cap of handleData line 51: 10 * 1024 * 1024. -/
def MAX_BUFFER_SIZE : Nat := 10485760

/-- The literal that starts every frame header. -/
def headerLit : List Char := "Content-Length: ".toList

/-- The blank-line terminator of the header. -/
def crlf2 : List Char := "\r\n\r\n".toList

/-- Numeric value of a decimal digit string (line 63: parseInt base 10 on the
    captured digit run). -/
def digitsToNat (ds : List Char) : Nat :=
  ds.foldl (fun n c => n * 10 + (c.toNat - 48)) 0

/-- Model of the anchored header regex of line 60,
    `/^Content-Length: (\d+)\r\n\r\n/`: the buffer must begin with the literal,
    a nonempty maximal digit run, and the blank line.  Returns
    (contentLength, headerEnd). -/
def matchHeader (buf : List Char) : Option (Nat × Nat) :=
  if headerLit.isPrefixOf buf then
    let after := buf.drop headerLit.length
    let ds := after.takeWhile (fun c => c.isDigit)
    let rest := after.drop ds.length
    if ds ≠ [] ∧ crlf2.isPrefixOf rest then
      some (digitsToNat ds, headerLit.length + ds.length + crlf2.length)
    else none
  else none

/-- Index of the last closing brace of the candidate content
    (`content.lastIndexOf(...)` at line 81); `none` models the result -1. -/
def lastBraceIdx (content : List Char) : Option Nat :=
  match content.reverse.findIdx? (fun c => c == '\x7d') with
  | some j => some (content.length - 1 - j)
  | none => none

/-- Whether `content[content.length - 1] === ` the closing brace (line 79);
    an empty content reads `undefined` there, hence `false`. -/
def contentEndsBrace (content : List Char) : Bool :=
  content.getLast? == some '\x7d'

/-- The brace-recovery heuristic of lines 78-97: given the extracted candidate
    content and the declared length, return the content actually parsed and
    the number of payload characters consumed from the buffer. -/
def adjustContent (content : List Char) (declared : Nat) : List Char × Nat :=
  if contentEndsBrace content then (content, declared)
  else
    match lastBraceIdx content with
    | some i => (content.take (i + 1), i + 1)
    | none => (content, declared)

/-- Fuel-indexed run of the `while (true)` loop of lines 58-108.  Each
    iteration consumes at least one buffered character, so
    `buf.length + 1` fuel always finishes the loop; `parse` models
    `JSON.parse` (line 102), and a frame is emitted only when it parses. -/
def processFuel (parse : List Char → Option Msg) :
    Nat → List Char → List Char × List Msg
  | 0, buf => (buf, [])
  | fuel + 1, buf =>
    match matchHeader buf with
    | none => (buf, [])
    | some (contentLength, headerEnd) =>
      if MAX_BUFFER_SIZE < contentLength then
        processFuel parse fuel (buf.drop (headerEnd + contentLength))
      else if buf.length < headerEnd + contentLength then
        (buf, [])
      else
        let content := (buf.drop headerEnd).take contentLength
        let adj := adjustContent content contentLength
        let next := processFuel parse fuel (buf.drop (headerEnd + adj.2))
        match parse adj.1 with
        | some m => (next.1, m :: next.2)
        | none => next

/-- The message-extraction loop run to completion on a buffer. -/
def processBuffer (parse : List Char → Option Msg) (buf : List Char) :
    List Char × List Msg :=
  processFuel parse (buf.length + 1) buf

/-- LSPClient.handleData (lines 46-109): append the chunk, truncate to the
    last `MAX_BUFFER_SIZE` characters when the cap is exceeded (line 54), then
    extract complete frames.  Returns the leftover buffer and the messages
    enqueued. -/
def handleData (parse : List Char → Option Msg) (buffer chunk : List Char) :
    List Char × List Msg :=
  let b := buffer ++ chunk
  let b2 := if MAX_BUFFER_SIZE < b.length then b.drop (b.length - MAX_BUFFER_SIZE) else b
  processBuffer parse b2

/-- Feeding a sequence of chunks to handleData, starting from a given buffer,
    collecting all messages in order. -/
def feedChunks (parse : List Char → Option Msg) :
    List Char → List (List Char) → List Char × List Msg
  | buffer, [] => (buffer, [])
  | buffer, c :: cs =>
    let r1 := handleData parse buffer c
    let r2 := feedChunks parse r1.1 cs
    (r2.1, r1.2 ++ r2.2)

/-- A wire frame as described by the claims: the decimal digit string of the
    header and the payload. -/
structure Frame where
  digits : List Char
  payload : List Char
deriving DecidableEq

/-- The bytes of a frame on the wire. -/
def frameBytes (f : Frame) : List Char :=
  headerLit ++ f.digits ++ crlf2 ++ f.payload

/-- Concatenation of a sequence of frames. -/
def flattenFrames (fs : List Frame) : List Char :=
  (fs.map frameBytes).flatten

/-- A valid frame per the claims: a nonempty digit run declaring exactly the
    payload length. -/
def ValidFrame (f : Frame) : Prop :=
  f.digits ≠ [] ∧ (∀ c ∈ f.digits, c.isDigit) ∧
    digitsToNat f.digits = f.payload.length

instance (f : Frame) : Decidable (ValidFrame f) := by
  unfold ValidFrame; exact inferInstance

/-- The buffer leftover allowed between chunks: empty at end of stream, or a
    strict prefix of the next frame. -/
def DanglingFor (d : List Char) (fs : List Frame) : Prop :=
  (fs = [] ∧ d = []) ∨
    ∃ g gs, fs = g :: gs ∧ Pre d (frameBytes g) ∧ d ≠ frameBytes g

/- ============ Request/Response Correlator (lines 209-261, 140-151) ====== -/

/-- Settlement of a request promise: the value a continuation was invoked
    with.  Error payloads are numbered; a concrete nonzero number stands for a
    (truthy) JS error object. -/
inductive Outcome
  | resolved (v : Nat)
  | rejectedErr (e : Nat)
  | rejectedTimeout
deriving DecidableEq

/-- Payload of an inbound well-formed Response: a result or a (truthy)
    error. -/
inductive RespOut
  | ok (v : Nat)
  | err (e : Nat)
deriving DecidableEq

/-- How handleMessage lines 144-148 settle a pending promise. -/
def outcomeOfResp : RespOut → Outcome
  | .ok v => .resolved v
  | .err e => .rejectedErr e

/-- An entry of `responsePromises` (line 243): the id key, a token naming the
    promise created by this very sendRequest call, and the id of the timer
    armed for it (line 235). -/
structure PendingCall where
  id : Nat
  token : Nat
  timer : Nat
deriving DecidableEq

/-- Correlator state.  `armed` holds the timers created by setTimeout that
    were not yet cleared or fired, each with the request id and promise token
    its closure captured.  `settled` is the log of continuation invocations.
    `gen` counts process instances (incremented by restart); `assigned` is a
    ghost log of (gen, id) pairs handed out by sendRequest. -/
structure CorrState where
  nextId : Nat
  pending : List PendingCall
  armed : List (Nat × Nat × Nat)
  settled : List (Nat × Outcome)
  nextToken : Nat
  nextTimer : Nat
  gen : Nat
  assigned : List (Nat × Nat)
deriving DecidableEq

/-- The correlator of a freshly constructed client with a started process:
    `nextId` starts at 1 (line 10). -/
def corrInit : CorrState :=
  { nextId := 1, pending := [], armed := [], settled := [],
    nextToken := 0, nextTimer := 0, gen := 0, assigned := [] }

/-- Map.get on the pending table. -/
def findPending (ps : List PendingCall) (i : Nat) : Option PendingCall :=
  ps.find? (fun p => p.id == i)

/-- Map.delete on the pending table. -/
def removePending (ps : List PendingCall) (i : Nat) : List PendingCall :=
  ps.filter (fun p => p.id != i)

/-- Lookup of an armed timer by its id. -/
def findTimer (ts : List (Nat × Nat × Nat)) (t : Nat) : Option (Nat × Nat) :=
  (ts.find? (fun e => e.1 == t)).map (fun e => e.2)

/-- clearTimeout: disarm a timer. -/
def removeTimer (ts : List (Nat × Nat × Nat)) (t : Nat) : List (Nat × Nat × Nat) :=
  ts.filter (fun e => e.1 != t)

/-- The events that drive the correlator: a sendRequest call, an inbound
    Response for an id, the firing of an armed timeout, and the state reset
    performed by restart (lines 600-611: the pending table is discarded and
    `nextId` reset to 1; armed timers are NOT cleared). -/
inductive CorrEvent
  | send
  | resp (id : Nat) (out : RespOut)
  | fire (timer : Nat)
  | restartReset
deriving DecidableEq

/-- One step of the correlator.
    send: lines 215 and 233-253 (new id, new pending entry, new armed timer).
    resp: lines 141-151 (settle and delete on a match, clearing the matched
    entry's own timer via its wrapped continuation; ignore otherwise).
    fire: lines 235-240 (a firing timer is disarmed; its closure deletes
    whatever entry its captured id now names and rejects its captured promise
    with a timeout error; it does not clear that entry's own timer).
    restartReset: lines 603-604. -/
def stepCorr (s : CorrState) : CorrEvent → CorrState
  | .send =>
    { s with
      nextId := s.nextId + 1
      pending := ⟨s.nextId, s.nextToken, s.nextTimer⟩ :: s.pending
      armed := (s.nextTimer, s.nextId, s.nextToken) :: s.armed
      nextToken := s.nextToken + 1
      nextTimer := s.nextTimer + 1
      assigned := (s.gen, s.nextId) :: s.assigned }
  | .resp i out =>
    match findPending s.pending i with
    | none => s
    | some p =>
      { s with
        pending := removePending s.pending i
        armed := removeTimer s.armed p.timer
        settled := s.settled ++ [(p.token, outcomeOfResp out)] }
  | .fire t =>
    match findTimer s.armed t with
    | none => s
    | some ct =>
      let s1 := { s with armed := removeTimer s.armed t }
      match findPending s1.pending ct.1 with
      | none => s1
      | some _ =>
        { s1 with
          pending := removePending s1.pending ct.1
          settled := s1.settled ++ [(ct.2, Outcome.rejectedTimeout)] }
  | .restartReset =>
    { s with pending := [], nextId := 1, gen := s.gen + 1 }

/-- Run a list of correlator events. -/
def runCorr (s : CorrState) (evs : List CorrEvent) : CorrState :=
  evs.foldl stepCorr s

/-- The settlements recorded for one promise token. -/
def settledFor (tok : Nat) (s : CorrState) : List (Nat × Outcome) :=
  s.settled.filter (fun e => e.1 == tok)

/-- States reachable without a restart. -/
inductive ReachNR : CorrState → Prop
  | init : ReachNR corrInit
  | step (s : CorrState) (e : CorrEvent) :
      ReachNR s → e ≠ .restartReset → ReachNR (stepCorr s e)

/-- States reachable including restarts. -/
inductive ReachCorr : CorrState → Prop
  | init : ReachCorr corrInit
  | step (s : CorrState) (e : CorrEvent) : ReachCorr s → ReachCorr (stepCorr s e)

/-- No restart occurs in the given events. -/
def NoRestart (evs : List CorrEvent) : Prop :=
  ∀ e ∈ evs, e ≠ CorrEvent.restartReset

/-- Events that neither deliver a response for id `i` nor fire timer `tmr`. -/
def Untouched (i tmr : Nat) (evs : List CorrEvent) : Prop :=
  ∀ e ∈ evs, (∀ out, e ≠ CorrEvent.resp i out) ∧ e ≠ CorrEvent.fire tmr

/-- The correlator invariant maintained while no restart occurs: pending
    entries are bounded by the counters and pairwise distinct in every field,
    the armed timers are exactly the timers of the pending entries with
    matching captures, and settled tokens are bounded. -/
def CorrInv (s : CorrState) : Prop :=
  (∀ p ∈ s.pending, p.id < s.nextId ∧ p.token < s.nextToken ∧
    p.timer < s.nextTimer) ∧
  List.Pairwise (fun p q => p.id ≠ q.id ∧ p.token ≠ q.token ∧
    p.timer ≠ q.timer) s.pending ∧
  (∀ e ∈ s.armed, ∃ p, p ∈ s.pending ∧ e = (p.timer, p.id, p.token)) ∧
  (∀ p ∈ s.pending, (p.timer, p.id, p.token) ∈ s.armed) ∧
  (∀ e ∈ s.settled, e.1 < s.nextToken)

/-- After settlement: no pending entry and no armed timer concerns the
    token, and the token counter is past it. -/
def TokenRetired (s : CorrState) (tok : Nat) : Prop :=
  (∀ p ∈ s.pending, p.token ≠ tok) ∧ (∀ e ∈ s.armed, e.2.2 ≠ tok) ∧
  tok < s.nextToken

/-- After removal: no pending entry and no armed timer concerns the id, and
    the id counter is past it. -/
def IdRetired (s : CorrState) (i : Nat) : Prop :=
  (∀ p ∈ s.pending, p.id ≠ i) ∧ (∀ e ∈ s.armed, e.2.1 ≠ i) ∧ i < s.nextId

/-- The state of one in-flight request: invariant holds, its entry is in the
    table, its timer armed with the right captures, its promise unsettled. -/
def PendingLive (s : CorrState) (i tok tmr : Nat) : Prop :=
  CorrInv s ∧ findPending s.pending i = some ⟨i, tok, tmr⟩ ∧
  (tmr, i, tok) ∈ s.armed ∧ settledFor tok s = [] ∧
  i < s.nextId ∧ tok < s.nextToken ∧ tmr < s.nextTimer

/-- The invariant that survives restarts: pending ids/tokens bounded and ids
    pairwise distinct, and the ghost assignment log holds pairwise-distinct
    (generation, id) pairs, each bounded by the current counters. -/
def CorrGlobalInv (s : CorrState) : Prop :=
  (∀ p ∈ s.pending, p.id < s.nextId ∧ p.token < s.nextToken) ∧
  List.Pairwise (fun p q => p.id ≠ q.id) s.pending ∧
  (∀ gi ∈ s.assigned, gi.1 < s.gen ∨ (gi.1 = s.gen ∧ gi.2 < s.nextId)) ∧
  s.assigned.Nodup

/- ===== Document sessions, diagnostics, lifecycle (lines 292-623) ======== -/

/-- Diagnostic items are opaque to the client (stored and forwarded verbatim);
    only their identity matters to the claims. -/
abbrev Diag := Nat

/-- The client state visible to the document/diagnostics/lifecycle
    operations.  `inited` is the `initialized` flag of line 12. -/
structure DocState where
  processStarted : Bool
  inited : Bool
  openedDocuments : List String
  documentVersions : List (String × Nat)
  documentDiagnostics : List (String × List Diag)
  diagnosticSubscribers : List Nat
deriving DecidableEq

/-- The open-set/session invariant of claim C5: a uri is in the open set iff
    the version map has an entry for it. -/
def DocInv (s : DocState) : Prop :=
  ∀ u : String, u ∈ s.openedDocuments ↔ (alookup u s.documentVersions).isSome

/-- The wire messages the modelled operations write. -/
inductive Wire
  | reqInit (rootDir : String)
  | reqShutdown
  | notifInited
  | notifExit
  | notifDidOpen (uri text lang : String) (version : Nat)
  | notifDidChange (uri text : String) (version : Nat)
  | notifDidClose (uri : String)
deriving DecidableEq

/-- sendNotification (lines 263-290) writes only when the process exists;
    otherwise it logs and returns without error. -/
def emitNotif (s : DocState) (w : Wire) : List Wire :=
  if s.processStarted then [w] else []

/-- LSPClient.openDocument (lines 344-387).  Returns the thrown error, or the
    new state plus the notifications written. -/
def openDocument (s : DocState) (uri text lang : String) :
    Except String (DocState × List Wire) :=
  if s.inited = false then
    .error "LSP client not initialized. Please call start_lsp first."
  else if uri ∈ s.openedDocuments then
    let currentVersion :=
      match alookup uri s.documentVersions with
      | some v => if v = 0 then 1 else v   -- JS line 353: get(uri) || 1
      | none => 1
    let newVersion := currentVersion + 1
    .ok ({ s with documentVersions := aset uri newVersion s.documentVersions },
         emitNotif s (.notifDidChange uri text newVersion))
  else
    .ok ({ s with
            openedDocuments := sadd uri s.openedDocuments,
            documentVersions := aset uri 1 s.documentVersions },
         emitNotif s (.notifDidOpen uri text lang 1))

/-- LSPClient.closeDocument (lines 400-419). -/
def closeDocument (s : DocState) (uri : String) :
    Except String (DocState × List Wire) :=
  if s.inited = false then
    .error "LSP client not initialized. Please call start_lsp first."
  else if uri ∈ s.openedDocuments then
    .ok ({ s with
            openedDocuments := sdel uri s.openedDocuments,
            documentVersions := aerase uri s.documentVersions },
         emitNotif s (.notifDidClose uri))
  else
    .ok (s, [])

/-- LSPClient.getDiagnostics (lines 422-424): stored record or empty array. -/
def getDiagnostics (s : DocState) (uri : String) : List Diag :=
  (alookup uri s.documentDiagnostics).getD []

/-- LSPClient.getAllDiagnostics (lines 427-429): a copy of the store. -/
def getAllDiagnostics (s : DocState) : List (String × List Diag) :=
  s.documentDiagnostics

/-- The synchronous catch-up loop of subscribeToDiagnostics lines 436-438:
    deliver every stored pair in insertion order to the callback.  The loop
    body is NOT wrapped in try/catch, so a throwing callback aborts the loop.
    `cbThrows` tells whether a given callback throws on a given pair.  Returns
    the deliveries that were made (the throwing invocation included) and
    whether an exception escaped. -/
def deliverAll (cbThrows : Nat → String → List Diag → Bool) (cb : Nat) :
    List (String × List Diag) → List (String × List Diag) × Bool
  | [] => ([], false)
  | (u, d) :: rest =>
    if cbThrows cb u d then ([(u, d)], true)
    else
      let r := deliverAll cbThrows cb rest
      ((u, d) :: r.1, r.2)

/-- LSPClient.subscribeToDiagnostics (lines 432-439): add the callback to the
    subscriber set, then deliver every stored (uri, diagnostics) pair to it.
    Returns the new state, the deliveries made, and whether an exception from
    the callback escaped to the caller. -/
def subscribeToDiagnostics (cbThrows : Nat → String → List Diag → Bool)
    (s : DocState) (cb : Nat) :
    DocState × List (String × List Diag) × Bool :=
  let s1 := { s with diagnosticSubscribers := sadd cb s.diagnosticSubscribers }
  let r := deliverAll cbThrows cb s.documentDiagnostics
  (s1, r.1, r.2)

/-- LSPClient.unsubscribeFromDiagnostics (lines 442-444). -/
def unsubscribeFromDiagnostics (s : DocState) (cb : Nat) : DocState :=
  { s with diagnosticSubscribers := sdel cb s.diagnosticSubscribers }

/-- LSPClient.clearDiagnosticSubscribers (lines 458-460). -/
def clearDiagnosticSubscribers (s : DocState) : DocState :=
  { s with diagnosticSubscribers := [] }

/-- LSPClient.notifyDiagnosticUpdate (lines 447-455): every current subscriber
    is invoked in order; a throw is caught and logged (line 452) and the loop
    continues.  Returns one (callback, threw) entry per invocation. -/
def notifyDiagnosticUpdate (cbThrows : Nat → String → List Diag → Bool)
    (s : DocState) (uri : String) (d : List Diag) : List (Nat × Bool) :=
  s.diagnosticSubscribers.map (fun cb => (cb, cbThrows cb uri d))

/-- The textDocument/publishDiagnostics branch of handleMessage
    (lines 159-187): when the uri is truthy (nonempty) the stored record for
    it is replaced and all subscribers are notified. -/
def handlePublishDiagnostics (cbThrows : Nat → String → List Diag → Bool)
    (s : DocState) (uri : String) (d : List Diag) :
    DocState × List (Nat × Bool) :=
  if uri = "" then (s, [])
  else
    let s1 := { s with documentDiagnostics := aset uri d s.documentDiagnostics }
    (s1, notifyDiagnosticUpdate cbThrows s1 uri d)

/-- LSPClient.shutdown (lines 548-576).  `oracle` is the settlement of the
    awaited shutdown request (forced to a rejection when the process was never
    started, line 211).  The catch at lines 573-575 swallows a failure, so the
    Except returned to the caller is always `.ok`; on the failure path the
    `initialized` flag stays `true` and the open-document set is kept (only
    the subscribers were already cleared and the didClose notifications
    already written).  On success `documentVersions` is NOT cleared. -/
def shutdown (s : DocState) (oracle : RespOut) :
    DocState × List Wire × Except Nat Unit :=
  if s.inited = false then (s, [], .ok ())
  else
    let s1 := clearDiagnosticSubscribers s
    let closes :=
      if s.processStarted then s.openedDocuments.map (fun u => Wire.notifDidClose u)
      else []
    let req := if s.processStarted then [Wire.reqShutdown] else []
    let out := if s.processStarted then oracle else .err 0
    match out with
    | .ok _ =>
      ({ s1 with inited := false, openedDocuments := [] },
       closes ++ req ++ [Wire.notifExit], .ok ())
    | .err _ =>
      (s1, closes ++ req, .ok ())

/-- LSPClient.initialize (lines 292-342), renamed for Lean.  When already
    initialized it returns at once (line 293): no wire traffic, no state
    change.  Otherwise the process is started if needed, the initialize
    request is sent (its settlement is `oracle`); on success the initialized
    notification follows and the flag is set; on failure the error is
    rethrown (line 340) with the flag still clear. -/
def initializeClient (s : DocState) (rootDir : String) (oracle : RespOut) :
    DocState × List Wire × Except Nat Unit :=
  if s.inited then (s, [], .ok ())
  else
    let s1 := { s with processStarted := true }
    match oracle with
    | .ok _ => ({ s1 with inited := true }, [.reqInit rootDir, .notifInited], .ok ())
    | .err e => (s1, [.reqInit rootDir], .error e)

/-- LSPClient.restart (lines 578-623).  When initialized, shutdown is
    attempted first (its request settled by `shutOracle`; failure tolerated).
    Lines 600-611 then reset every bookkeeping field regardless, line 614
    spawns a fresh process, and with a root directory supplied the client is
    re-initialized (`initOracle`), whose failure propagates. -/
def restart (_s : DocState) (rootDir : Option String)
    (_shutOracle initOracle : RespOut) : DocState × Except Nat Unit :=
  let s2 : DocState :=
    { processStarted := true
      inited := false
      openedDocuments := []
      documentVersions := []
      documentDiagnostics := []
      diagnosticSubscribers := [] }
  match rootDir with
  | none => (s2, .ok ())
  | some r =>
    let r3 := initializeClient s2 r initOracle
    (r3.1, r3.2.2)

/-- Opening the same uri n + 1 times in a row (claim C6): returns the final
    state and all notifications written, or the first error. -/
def openLoop (s : DocState) (uri lang : String) (texts : Nat → String) :
    Nat → Except String (DocState × List Wire)
  | 0 => openDocument s uri (texts 0) lang
  | n + 1 =>
    match openLoop s uri lang texts n with
    | .error e => .error e
    | .ok r =>
      match openDocument r.1 uri (texts (n + 1)) lang with
      | .error e => .error e
      | .ok r2 => .ok (r2.1, r.2 ++ r2.2)

/- ===================== Concrete data for the counterexamples =========== -/

/-- A JSON-RPC notification serialization with one trailing space: 31 bytes,
    well-formed JSON (JSON.parse skips trailing whitespace), but its last
    character is not the closing brace. -/
def p1cex : List Char :=
  "\x7b\"jsonrpc\":\"2.0\",\"method\":\"m\"\x7d ".toList

/-- A 30-byte JSON-RPC notification serialization ending with the closing
    brace. -/
def p2cex : List Char :=
  "\x7b\"jsonrpc\":\"2.0\",\"method\":\"n\"\x7d".toList

/-- The behaviour of JSON.parse on the only contents the decoder extracts in
    the C1 counterexample run, with messages numbered: JSON.parse accepts
    `p1cex` (trailing space skipped), its 30-byte truncation (the same
    message), and `p2cex`. -/
def parseCex (s : List Char) : Option Nat :=
  if s = p1cex.dropLast then some 1
  else if s = p1cex then some 1
  else if s = p2cex then some 2
  else none

/-- First frame of the C1 counterexample: declares length 31 for `p1cex`. -/
def frame1cex : Frame := ⟨"31".toList, p1cex⟩

/-- Second frame of the C1 counterexample: declares length 30 for `p2cex`. -/
def frame2cex : Frame := ⟨"30".toList, p2cex⟩

/-- The single chunk of the C1 counterexample: two valid frames, fed at
    once. -/
def chunkCex : List Char := frameBytes frame1cex ++ frameBytes frame2cex

/-- The valid trailing frame of the C9 counterexample. -/
def frameC9 : Frame := ⟨"30".toList, p2cex⟩

/-- C9 counterexample, first chunk: a bare header declaring 10485761 payload
    bytes, one more than the enforced maximum. -/
def chunkC9a : List Char := headerLit ++ "10485761".toList ++ crlf2

/-- C9 counterexample, second chunk: the 10485761 declared payload bytes
    followed by a valid frame. -/
def chunkC9b : List Char := List.replicate 10485761 'a' ++ frameBytes frameC9

/-- JSON.parse behaviour for the C9 run: only `p2cex` is a message. -/
def parseC9 (s : List Char) : Option Nat :=
  if s = p2cex then some 2 else none

/-- A client state used by several witnesses and counterexamples: started,
    initialized, one open document with its version entry. -/
def docA : DocState :=
  { processStarted := true
    inited := true
    openedDocuments := ["file:///a.txt"]
    documentVersions := [("file:///a.txt", 1)]
    documentDiagnostics := []
    diagnosticSubscribers := [] }

/-- A client state with one stored diagnostics record and no subscribers. -/
def docDiag : DocState :=
  { processStarted := true
    inited := true
    openedDocuments := []
    documentVersions := []
    documentDiagnostics := [("file:///a.txt", [5])]
    diagnosticSubscribers := [] }

/-- A callback behaviour that always throws. -/
def cbAlwaysThrows : Nat → String → List Diag → Bool := fun _ _ _ => true

/-- A callback behaviour that never throws. -/
def cbNeverThrows : Nat → String → List Diag → Bool := fun _ _ _ => false

/-- The state after opening a second document on `docA`. -/
def docB : DocState :=
  { processStarted := true
    inited := true
    openedDocuments := ["file:///a.txt", "file:///b.txt"]
    documentVersions := [("file:///a.txt", 1), ("file:///b.txt", 1)]
    documentDiagnostics := []
    diagnosticSubscribers := [] }

/- ===================== Prefix toolkit ================================== -/

theorem Pre_nil (l : List α) : Pre [] l := ⟨l, rfl⟩

theorem Pre_app (a t : List α) : Pre a (a ++ t) := ⟨t, rfl⟩

theorem Pre.length_le {s l : List α} (h : Pre s l) : s.length ≤ l.length := by
  obtain ⟨t, rfl⟩ := h
  simp

theorem Pre_append_cases {s a b : List α} (h : Pre s (a ++ b)) :
    Pre s a ∨ ∃ v, s = a ++ v ∧ Pre v b := by
  obtain ⟨t, ht⟩ := h
  rcases List.append_eq_append_iff.mp ht with ⟨u, hu1, _⟩ | ⟨u, hu1, hu2⟩
  · exact Or.inl ⟨u, hu1.symm⟩
  · exact Or.inr ⟨u, hu1, t, hu2.symm⟩

theorem Pre_cancel {x u v : List α} (h : Pre (x ++ u) (x ++ v)) : Pre u v := by
  obtain ⟨t, ht⟩ := h
  refine ⟨t, ?_⟩
  rw [List.append_assoc] at ht
  exact List.append_cancel_left ht

theorem Pre_mem {s l : List α} (h : Pre s l) {c : α} (hc : c ∈ s) : c ∈ l := by
  obtain ⟨t, rfl⟩ := h
  exact List.mem_append_left t hc

theorem Pre_antisymm {s l : List α} (h1 : Pre s l) (h2 : Pre l s) : s = l := by
  obtain ⟨t, rfl⟩ := h1
  have h := h2.length_le
  simp at h
  simp [h]

/-- Bridge between the executable `isPrefixOf` check used by the model and
    the `Pre` predicate. -/
theorem isPrefixOf_iff_Pre : ∀ (a b : List Char), a.isPrefixOf b = true ↔ Pre a b := by
  intro a
  induction a with
  | nil =>
    intro b
    constructor
    · intro _
      exact Pre_nil b
    · intro _
      cases b <;> rfl
  | cons x xs ih =>
    intro b
    cases b with
    | nil =>
      constructor
      · intro h
        simp [List.isPrefixOf] at h
      · rintro ⟨t, ht⟩
        simp at ht
    | cons y ys =>
      constructor
      · intro h
        simp only [List.isPrefixOf, Bool.and_eq_true, beq_iff_eq] at h
        obtain ⟨hxy, hrest⟩ := h
        obtain ⟨t, ht⟩ := (ih ys).mp hrest
        exact ⟨t, by simp [hxy, ht]⟩
      · rintro ⟨t, ht⟩
        simp only [List.cons_append, List.cons.injEq] at ht
        obtain ⟨hxy, ht2⟩ := ht
        simp only [List.isPrefixOf, Bool.and_eq_true, beq_iff_eq]
        exact ⟨hxy, (ih ys).mpr ⟨t, ht2⟩⟩

theorem isPrefixOf_false_of_long {a b : List Char} (h : b.length < a.length) :
    a.isPrefixOf b = false := by
  by_contra hc
  have := (isPrefixOf_iff_Pre a b).mp (by simpa using hc)
  exact absurd this.length_le (by omega)

/- ===================== takeWhile helpers =============================== -/

theorem takeWhile_all (p : Char → Bool) :
    ∀ (l : List Char), (∀ c ∈ l, p c = true) → l.takeWhile p = l := by
  intro l
  induction l with
  | nil => intro _; rfl
  | cons x xs ih =>
    intro h
    have hx : p x = true := h x (by simp)
    simp [List.takeWhile_cons, hx, ih (fun c hc => h c (by simp [hc]))]

theorem takeWhile_all_append (p : Char → Bool) (l1 l2 : List Char)
    (h : ∀ c ∈ l1, p c = true) :
    (l1 ++ l2).takeWhile p = l1 ++ l2.takeWhile p := by
  induction l1 with
  | nil => rfl
  | cons x xs ih =>
    have hx : p x = true := h x (by simp)
    simp only [List.cons_append, List.takeWhile_cons, hx, if_true]
    rw [ih (fun c hc => h c (by simp [hc]))]

/- ===================== matchHeader characterization ==================== -/

/-- A buffer beginning with a complete header (any continuation X) matches,
    yielding the declared length and the header size. -/
theorem matchHeader_header (ds : List Char) (hne : ds ≠ [])
    (hdig : ∀ c ∈ ds, c.isDigit = true) (X : List Char) :
    matchHeader (headerLit ++ ds ++ crlf2 ++ X) =
      some (digitsToNat ds, headerLit.length + ds.length + crlf2.length) := by
  have hbuf : headerLit ++ ds ++ crlf2 ++ X = headerLit ++ (ds ++ (crlf2 ++ X)) := by
    simp [List.append_assoc]
  have hpre : headerLit.isPrefixOf (headerLit ++ ds ++ crlf2 ++ X) = true := by
    rw [isPrefixOf_iff_Pre, hbuf]
    exact Pre_app _ _
  have hafter : (headerLit ++ ds ++ crlf2 ++ X).drop headerLit.length
      = ds ++ (crlf2 ++ X) := by
    rw [hbuf]
    exact List.drop_left _ _
  have hcr : crlf2 = '\x0d' :: ['\n', '\x0d', '\n'] := by rfl
  have htw : (ds ++ (crlf2 ++ X)).takeWhile (fun c => c.isDigit) = ds := by
    rw [takeWhile_all_append _ _ _ hdig, hcr]
    simp [List.takeWhile_cons]
  have hrest : (ds ++ (crlf2 ++ X)).drop ds.length = crlf2 ++ X :=
    List.drop_left _ _
  have hcrpre : crlf2.isPrefixOf (crlf2 ++ X) = true := by
    rw [isPrefixOf_iff_Pre]
    exact Pre_app _ _
  unfold matchHeader
  rw [if_pos hpre]
  simp only [hafter, htw, hrest]
  rw [if_pos ⟨hne, hcrpre⟩]

/-- A strict prefix of a header never matches (the decoder waits for more
    bytes). -/
theorem matchHeader_none_short (d ds : List Char) (hne : ds ≠ [])
    (hdig : ∀ c ∈ ds, c.isDigit = true)
    (hpre : Pre d (headerLit ++ ds ++ crlf2))
    (hlt : d.length < headerLit.length + ds.length + crlf2.length) :
    matchHeader d = none := by
  have hshape : headerLit ++ ds ++ crlf2 = headerLit ++ (ds ++ crlf2) := by
    simp [List.append_assoc]
  rw [hshape] at hpre
  have hcrlen : crlf2.length = 4 := by rfl
  rcases Pre_append_cases hpre with hcase | ⟨t, rfl, htpre⟩
  · -- d is a prefix of the bare literal: either shorter (no match) or equal
    -- (empty digit run).
    by_cases heq : d = headerLit
    · subst heq
      unfold matchHeader
      rw [if_pos (by rw [isPrefixOf_iff_Pre]; exact ⟨[], by simp⟩)]
      simp only [List.drop_length]
      rw [if_neg]
      rintro ⟨hne2, -⟩
      exact hne2 rfl
    · have hlen : d.length < headerLit.length := by
        rcases Nat.lt_or_ge d.length headerLit.length with h | h
        · exact h
        · exfalso
          obtain ⟨t, ht⟩ := hcase
          have hlt2 := congrArg List.length ht
          simp at hlt2
          have ht0 : t = [] := by
            have : t.length = 0 := by omega
            exact List.length_eq_zero.mp this
          subst ht0
          simp at ht
          exact heq ht
      unfold matchHeader
      rw [if_neg]
      simp [isPrefixOf_false_of_long hlen]
  · -- d = headerLit ++ t with t a strict prefix of ds ++ crlf2.
    have hafter : (headerLit ++ t).drop headerLit.length = t := List.drop_left _ _
    have htlen : t.length < ds.length + crlf2.length := by
      have hd : (headerLit ++ t).length = headerLit.length + t.length := by simp
      omega
    have hnil : crlf2.isPrefixOf ([] : List Char) = false :=
      isPrefixOf_false_of_long (by decide)
    rcases Pre_append_cases htpre with htds | ⟨v, rfl, hvpre⟩
    · -- t is a prefix of the digit run: takeWhile eats everything, the
      -- blank line is missing.
      have htdig : ∀ c ∈ t, c.isDigit = true := fun c hc => hdig c (Pre_mem htds hc)
      unfold matchHeader
      rw [if_pos (by rw [isPrefixOf_iff_Pre]; exact Pre_app _ _)]
      simp only [hafter, takeWhile_all _ t htdig, List.drop_length]
      rw [if_neg]
      rintro ⟨-, hcr⟩
      rw [hnil] at hcr
      exact Bool.false_ne_true hcr
    · -- t = ds ++ v with v a strict prefix of the blank line.
      cases v with
      | nil =>
        unfold matchHeader
        rw [if_pos (by rw [isPrefixOf_iff_Pre]; exact Pre_app _ _)]
        simp only [List.append_nil, List.drop_left, takeWhile_all _ ds hdig,
          List.drop_length]
        rw [if_neg]
        rintro ⟨-, hcr⟩
        rw [hnil] at hcr
        exact Bool.false_ne_true hcr
      | cons c v1 =>
        have hc : c = '\x0d' := by
          obtain ⟨w, hw⟩ := hvpre
          have hcr : crlf2 = '\x0d' :: ['\n', '\x0d', '\n'] := by rfl
          rw [hcr] at hw
          simp at hw
          exact hw.1
        subst hc
        have htw : (ds ++ '\x0d' :: v1).takeWhile (fun x => x.isDigit) = ds := by
          rw [takeWhile_all_append _ _ _ hdig]
          simp [List.takeWhile_cons]
        have hdrop : (ds ++ '\x0d' :: v1).drop ds.length = '\x0d' :: v1 :=
          List.drop_left _ _
        unfold matchHeader
        rw [if_pos (by rw [isPrefixOf_iff_Pre]; exact Pre_app _ _)]
        simp only [hafter, htw, hdrop]
        rw [if_neg]
        rintro ⟨-, hcr⟩
        have hvlen : ('\x0d' :: v1).length < crlf2.length := by
          have h2 : (ds ++ '\x0d' :: v1).length = ds.length + (v1.length + 1) := by
            simp
          simp only [List.length_cons]
          omega
        have hple := ((isPrefixOf_iff_Pre _ _).mp hcr).length_le
        omega

/- ===================== processFuel on aligned buffers ================== -/

theorem Pre_length_lt {s l : List α} (h : Pre s l) (hne : s ≠ l) :
    s.length < l.length := by
  obtain ⟨t, rfl⟩ := h
  cases t with
  | nil => simp at hne
  | cons x xs =>
    simp only [List.length_append, List.length_cons]
    omega

theorem matchHeader_nil : matchHeader ([] : List Char) = none := by decide

theorem processFuel_nil (parse : List Char → Option Msg) (fuel : Nat) :
    processFuel parse fuel [] = ([], []) := by
  cases fuel with
  | zero => rfl
  | succ n => simp [processFuel, matchHeader_nil]

/-- On a strict prefix of a valid, size-bounded frame with nonempty payload
    the loop waits for more bytes, whatever the fuel. -/
theorem processFuel_wait (parse : List Char → Option Msg) (f : Frame)
    (d : List Char) (hval : ValidFrame f) (hnp : f.payload ≠ [])
    (hmax : f.payload.length ≤ MAX_BUFFER_SIZE)
    (hpre : Pre d (frameBytes f)) (hne : d ≠ frameBytes f) :
    ∀ fuel, processFuel parse fuel d = (d, []) := by
  obtain ⟨hds, hdig, hdlen⟩ := hval
  have hnp0 : 0 < f.payload.length := by
    cases hp : f.payload with
    | nil => exact absurd hp hnp
    | cons a l => simp [hp]
  intro fuel
  cases fuel with
  | zero => rfl
  | succ n =>
    have hfb : frameBytes f = (headerLit ++ f.digits ++ crlf2) ++ f.payload := by
      simp [frameBytes, List.append_assoc]
    rw [hfb] at hpre hne
    rcases Pre_append_cases hpre with hshort | ⟨q, rfl, hq⟩
    · by_cases heq : d = headerLit ++ f.digits ++ crlf2
      · -- exactly a complete header with no payload bytes yet: the decoder
        -- matches the header, then waits for the declared bytes.
        subst heq
        have hm := matchHeader_header f.digits hds hdig []
        rw [List.append_nil, hdlen] at hm
        simp only [processFuel, hm]
        rw [if_neg (by omega), if_pos]
        have hL : (headerLit ++ f.digits ++ crlf2).length
            = headerLit.length + f.digits.length + crlf2.length := by
          simp only [List.length_append]
        omega
      · have hlt : d.length < headerLit.length + f.digits.length + crlf2.length := by
          have h1 := Pre_length_lt hshort heq
          have hL : (headerLit ++ f.digits ++ crlf2).length
              = headerLit.length + f.digits.length + crlf2.length := by
            simp only [List.length_append]
          omega
        simp [processFuel, matchHeader_none_short d f.digits hds hdig
          (by simpa [List.append_assoc] using hshort) hlt]
    · -- a complete header plus part of the payload: matched, waiting.
      have hqlt : q.length < f.payload.length := by
        apply Pre_length_lt hq
        intro hqe
        exact hne (by rw [hqe])
      have hm := matchHeader_header f.digits hds hdig q
      have hsh : headerLit ++ f.digits ++ crlf2 ++ q
          = (headerLit ++ f.digits ++ crlf2) ++ q := by
        simp [List.append_assoc]
      rw [hsh, hdlen] at hm
      simp only [processFuel, hm]
      rw [if_neg (by omega), if_pos]
      have hL : ((headerLit ++ f.digits ++ crlf2) ++ q).length
          = headerLit.length + f.digits.length + crlf2.length + q.length := by
        simp only [List.length_append]
      omega

/-- Decoding one complete frame whose payload ends with the closing brace:
    the frame is consumed exactly and its payload parsed, then the loop
    continues on the remainder with one unit of fuel spent. -/
theorem processFuel_frame (parse : List Char → Option Msg) (f : Frame)
    (rest : List Char) (hval : ValidFrame f)
    (hbr : contentEndsBrace f.payload = true)
    (hmax : f.payload.length ≤ MAX_BUFFER_SIZE) (fuel : Nat) :
    processFuel parse (fuel + 1) (frameBytes f ++ rest) =
      (match parse f.payload with
       | some m => ((processFuel parse fuel rest).1,
                    m :: (processFuel parse fuel rest).2)
       | none => processFuel parse fuel rest) := by
  obtain ⟨hds, hdig, hdlen⟩ := hval
  have hbuf : frameBytes f ++ rest
      = headerLit ++ f.digits ++ crlf2 ++ (f.payload ++ rest) := by
    simp [frameBytes, List.append_assoc]
  have hm := matchHeader_header f.digits hds hdig (f.payload ++ rest)
  rw [← hbuf, hdlen] at hm
  have hA : headerLit.length + f.digits.length + crlf2.length
      = (headerLit ++ f.digits ++ crlf2).length := by
    simp only [List.length_append]
  have hbuf2 : frameBytes f ++ rest
      = (headerLit ++ f.digits ++ crlf2) ++ (f.payload ++ rest) := by
    simp [frameBytes, List.append_assoc]
  have heq1 : (frameBytes f ++ rest).drop
      (headerLit.length + f.digits.length + crlf2.length) = f.payload ++ rest := by
    rw [hA, hbuf2]
    exact List.drop_left _ _
  have heq2 : (f.payload ++ rest).take f.payload.length = f.payload :=
    List.take_left _ _
  have hB : headerLit.length + f.digits.length + crlf2.length + f.payload.length
      = (frameBytes f).length := by
    simp only [frameBytes, List.length_append]
  have heq3 : (frameBytes f ++ rest).drop
      (headerLit.length + f.digits.length + crlf2.length + f.payload.length)
      = rest := by
    rw [hB]
    exact List.drop_left _ _
  have heq4 : adjustContent f.payload f.payload.length
      = (f.payload, f.payload.length) := by
    simp [adjustContent, hbr]
  have hlen5 : ¬ (frameBytes f ++ rest).length
      < headerLit.length + f.digits.length + crlf2.length + f.payload.length := by
    simp only [frameBytes, List.length_append]
    omega
  simp only [processFuel, hm]
  rw [if_neg (by omega), if_neg hlen5]
  simp only [heq1, heq2, heq4, heq3]

/- ===================== Frame stream lemmas ============================= -/

theorem flattenFrames_nil : flattenFrames ([] : List Frame) = [] := rfl

theorem flattenFrames_cons (f : Frame) (fs : List Frame) :
    flattenFrames (f :: fs) = frameBytes f ++ flattenFrames fs := by
  simp [flattenFrames]

theorem flattenFrames_append (fs1 fs2 : List Frame) :
    flattenFrames (fs1 ++ fs2) = flattenFrames fs1 ++ flattenFrames fs2 := by
  simp [flattenFrames]

theorem frameBytes_length_pos (f : Frame) : 0 < (frameBytes f).length := by
  have h16 : headerLit.length = 16 := rfl
  simp only [frameBytes, List.length_append]
  omega

theorem frameBytes_ne_nil (f : Frame) : frameBytes f ≠ [] := by
  intro h
  have hp := frameBytes_length_pos f
  rw [h] at hp
  simp at hp

theorem danglingFor_nil (fs : List Frame) : DanglingFor [] fs := by
  cases fs with
  | nil => exact Or.inl ⟨rfl, rfl⟩
  | cons g gs =>
    exact Or.inr ⟨g, gs, rfl, Pre_nil _, fun h => frameBytes_ne_nil g h.symm⟩

theorem frames_length_le (fs : List Frame) :
    fs.length ≤ (flattenFrames fs).length := by
  induction fs with
  | nil => simp [flattenFrames]
  | cons f fs ih =>
    rw [flattenFrames_cons]
    have hp := frameBytes_length_pos f
    simp only [List.length_append, List.length_cons]
    omega

theorem frameBytes_length_le_of_mem {f : Frame} {fs : List Frame} (h : f ∈ fs) :
    (frameBytes f).length ≤ (flattenFrames fs).length := by
  induction fs with
  | nil => simp at h
  | cons g gs ih =>
    rw [flattenFrames_cons]
    rcases List.mem_cons.mp h with rfl | hmem
    · simp only [List.length_append]
      omega
    · have := ih hmem
      simp only [List.length_append]
      omega

theorem payload_length_le_frameBytes (f : Frame) :
    f.payload.length ≤ (frameBytes f).length := by
  simp only [frameBytes, List.length_append]
  omega

theorem payload_ne_nil_of_endsBrace {l : List Char}
    (h : contentEndsBrace l = true) : l ≠ [] := by
  intro he
  subst he
  simp [contentEndsBrace] at h

/-- Decoding a buffer of complete valid brace-terminated frames followed by a
    dangling strict prefix of a further valid frame (or nothing): all complete
    frames are consumed and parsed in order, the dangling part is kept. -/
theorem processFuel_frames (parse : List Char → Option Msg) :
    ∀ (fs : List Frame) (d : List Char) (fuel : Nat),
      (∀ f ∈ fs, ValidFrame f ∧ contentEndsBrace f.payload = true ∧
        f.payload.length ≤ MAX_BUFFER_SIZE) →
      (d = [] ∨ ∃ g, ValidFrame g ∧ g.payload ≠ [] ∧
        g.payload.length ≤ MAX_BUFFER_SIZE ∧ Pre d (frameBytes g) ∧
        d ≠ frameBytes g) →
      fs.length < fuel →
      processFuel parse fuel (flattenFrames fs ++ d)
        = (d, fs.filterMap (fun f => parse f.payload)) := by
  intro fs
  induction fs with
  | nil =>
    intro d fuel _ hd _
    rcases hd with rfl | ⟨g, hg1, hg2, hg3, hg4, hg5⟩
    · simp [flattenFrames, processFuel_nil]
    · simpa [flattenFrames] using
        processFuel_wait parse g d hg1 hg2 hg3 hg4 hg5 fuel
  | cons f fs ih =>
    intro d fuel hv hd hfuel
    obtain ⟨hval, hbr, hmax⟩ := hv f (by simp)
    cases fuel with
    | zero => omega
    | succ n =>
      rw [flattenFrames_cons, List.append_assoc,
        processFuel_frame parse f _ hval hbr hmax n,
        ih d n (fun g hg => hv g (by simp [hg])) hd
          (by simp only [List.length_cons] at hfuel; omega)]
      cases hp : parse f.payload <;> simp [hp, List.filterMap_cons]

/-- The loop run by handleData always has enough fuel for a frame-aligned
    buffer. -/
theorem processBuffer_frames (parse : List Char → Option Msg)
    (fs : List Frame) (d : List Char)
    (hv : ∀ f ∈ fs, ValidFrame f ∧ contentEndsBrace f.payload = true ∧
        f.payload.length ≤ MAX_BUFFER_SIZE)
    (hd : d = [] ∨ ∃ g, ValidFrame g ∧ g.payload ≠ [] ∧
        g.payload.length ≤ MAX_BUFFER_SIZE ∧ Pre d (frameBytes g) ∧
        d ≠ frameBytes g) :
    processBuffer parse (flattenFrames fs ++ d)
      = (d, fs.filterMap (fun f => parse f.payload)) := by
  unfold processBuffer
  apply processFuel_frames parse fs d _ hv hd
  have h1 := frames_length_le fs
  simp only [List.length_append]
  omega

/-- Any prefix of a frame stream splits into whole frames plus a dangling
    strict prefix of the next frame. -/
theorem decompose_frames :
    ∀ (fs : List Frame) (S : List Char), Pre S (flattenFrames fs) →
      ∃ fs1 fs2 d, fs = fs1 ++ fs2 ∧ S = flattenFrames fs1 ++ d ∧
        DanglingFor d fs2 := by
  intro fs
  induction fs with
  | nil =>
    intro S hS
    obtain ⟨t, ht⟩ := hS
    rw [flattenFrames_nil] at ht
    rcases List.append_eq_nil.mp ht with ⟨rfl, -⟩
    exact ⟨[], [], [], rfl, rfl, danglingFor_nil []⟩
  | cons f fs ih =>
    intro S hS
    rw [flattenFrames_cons] at hS
    rcases Pre_append_cases hS with h1 | ⟨v, rfl, hv⟩
    · by_cases heq : S = frameBytes f
      · subst heq
        refine ⟨[f], fs, [], rfl, ?_, danglingFor_nil fs⟩
        simp [flattenFrames_cons, flattenFrames_nil]
      · exact ⟨[], f :: fs, S, rfl, by simp [flattenFrames_nil],
          Or.inr ⟨f, fs, rfl, h1, heq⟩⟩
    · obtain ⟨fs1, fs2, d, hfs, hSv, hd⟩ := ih v hv
      refine ⟨f :: fs1, fs2, d, by simp [hfs], ?_, hd⟩
      rw [flattenFrames_cons, hSv, List.append_assoc]

theorem filterMap_eq_of_map_some {α β : Type} (g : α → Option β) :
    ∀ (l : List α) (ms : List β), l.map g = ms.map some →
      l.filterMap g = ms := by
  intro l
  induction l with
  | nil =>
    intro ms h
    cases ms with
    | nil => rfl
    | cons m ms2 => simp at h
  | cons x xs ih =>
    intro ms h
    cases ms with
    | nil => simp at h
    | cons m ms2 =>
      simp only [List.map_cons, List.cons.injEq] at h
      simp [List.filterMap_cons, h.1, ih ms2 h.2]

/-- Chunk-feeding invariant: from a dangling buffer whose continuation by the
    remaining chunks is exactly the remaining frames (all valid, all payloads
    brace-terminated, whole stream within the buffer cap), the decoder
    consumes everything and emits every frame's parse in order. -/
theorem feed_main (parse : List Char → Option Msg) :
    ∀ (chunks : List (List Char)) (fs : List Frame) (d : List Char),
      (∀ f ∈ fs, ValidFrame f ∧ contentEndsBrace f.payload = true) →
      DanglingFor d fs →
      d ++ chunks.flatten = flattenFrames fs →
      (flattenFrames fs).length ≤ MAX_BUFFER_SIZE →
      feedChunks parse d chunks
        = ([], fs.filterMap (fun f => parse f.payload)) := by
  intro chunks
  induction chunks with
  | nil =>
    intro fs d hv hd hcat hsz
    simp only [List.flatten_nil, List.append_nil] at hcat
    rcases hd with ⟨rfl, rfl⟩ | ⟨g, gs, rfl, hpre, hne⟩
    · rfl
    · exfalso
      have h1 := Pre_length_lt hpre hne
      have h2 := @frameBytes_length_le_of_mem g (g :: gs) (by simp)
      rw [← hcat] at h2
      omega
  | cons c cs ih =>
    intro fs d hv hd hcat hsz
    have hmem : ∀ f ∈ fs, ValidFrame f ∧ contentEndsBrace f.payload = true ∧
        f.payload.length ≤ MAX_BUFFER_SIZE := by
      intro f hf
      refine ⟨(hv f hf).1, (hv f hf).2, ?_⟩
      have h1 := payload_length_le_frameBytes f
      have h2 := frameBytes_length_le_of_mem hf
      omega
    have hpreb : Pre (d ++ c) (flattenFrames fs) := by
      refine ⟨cs.flatten, ?_⟩
      rw [← hcat]
      simp [List.flatten_cons, List.append_assoc]
    obtain ⟨fs1, fs2, d2, rfl, hb, hd2⟩ := decompose_frames fs (d ++ c) hpreb
    have hvd2 : d2 = [] ∨ ∃ g, ValidFrame g ∧ g.payload ≠ [] ∧
        g.payload.length ≤ MAX_BUFFER_SIZE ∧ Pre d2 (frameBytes g) ∧
        d2 ≠ frameBytes g := by
      rcases hd2 with ⟨-, rfl⟩ | ⟨g, gs, hfs2, hpre, hne⟩
      · exact Or.inl rfl
      · refine Or.inr ⟨g, ?_, ?_, ?_, hpre, hne⟩
        · exact (hmem g (by simp [hfs2])).1
        · exact payload_ne_nil_of_endsBrace (hmem g (by simp [hfs2])).2.1
        · exact (hmem g (by simp [hfs2])).2.2
    have hnotrunc : ¬ MAX_BUFFER_SIZE < (d ++ c).length := by
      have h1 := hpreb.length_le
      omega
    have hstep : handleData parse d c
        = (d2, fs1.filterMap (fun f => parse f.payload)) := by
      simp only [handleData]
      rw [if_neg hnotrunc, hb]
      exact processBuffer_frames parse fs1 d2
        (fun f hf => hmem f (by simp [hf])) hvd2
    have hcat2 : d2 ++ cs.flatten = flattenFrames fs2 := by
      have h1 : flattenFrames fs1 ++ (d2 ++ cs.flatten)
          = flattenFrames fs1 ++ flattenFrames fs2 := by
        rw [← flattenFrames_append, ← hcat]
        rw [← List.append_assoc, ← hb]
        simp [List.flatten_cons, List.append_assoc]
      exact List.append_cancel_left h1
    have hsz2 : (flattenFrames fs2).length ≤ MAX_BUFFER_SIZE := by
      rw [flattenFrames_append] at hsz
      simp only [List.length_append] at hsz
      omega
    have hrec := ih fs2 d2 (fun f hf => hv f (by simp [hf])) hd2 hcat2 hsz2
    simp only [feedChunks, hstep, hrec, List.filterMap_append]

/- ===================== Claim C1 ======================================== -/

/-- Claim C1, counterexample.  The claim states that for every chunking of a
    byte stream encoding N valid frames the decoder emits exactly N messages
    equal to the originals.  Here a single chunk carries two valid frames
    (message 1: 31 payload bytes of well-formed JSON with a trailing space;
    message 2: 30 payload bytes), yet the decoder emits only message 1: the
    brace heuristic of lines 79-92 consumes one byte less than declared, the
    stray space blocks every later header match, and message 2 is lost. -/
theorem C1_counterexample :
    (ValidFrame frame1cex ∧ ValidFrame frame2cex ∧
      parseCex frame1cex.payload = some 1 ∧
      parseCex frame2cex.payload = some 2 ∧
      chunkCex = frameBytes frame1cex ++ frameBytes frame2cex) ∧
    (feedChunks parseCex [] [chunkCex]).2 = [1] ∧
    (feedChunks parseCex [] [chunkCex]).2 ≠ [1, 2] := by
  exact ⟨by decide, by decide, by decide⟩

/-- Claim C1, amended.  For every sequence of chunks whose concatenation
    encodes N valid frames, the decoder emits exactly the N original messages
    and retains no leftover, regardless of chunk boundaries — provided every
    payload's final character is the closing brace (so the recovery heuristic
    of lines 79-92 never misfires) and the whole stream fits within the
    10 MiB buffer cap (so line 54 never truncates). -/
theorem C1_amended_theorem {Msg : Type} (parse : List Char → Option Msg)
    (frames : List Frame) (chunks : List (List Char)) (msgs : List Msg)
    (hvalid : ∀ f ∈ frames, ValidFrame f ∧ contentEndsBrace f.payload = true)
    (hparse : frames.map (fun f => parse f.payload) = msgs.map some)
    (hcat : chunks.flatten = flattenFrames frames)
    (hsize : (flattenFrames frames).length ≤ MAX_BUFFER_SIZE) :
    feedChunks parse [] chunks = ([], msgs) := by
  rw [feed_main parse chunks frames [] hvalid (danglingFor_nil frames)
      (by simpa using hcat) hsize,
    filterMap_eq_of_map_some _ frames msgs hparse]

/-- Claim C1 witness: a brace-terminated frame split in the middle of its
    payload across two chunks decodes to exactly its message. -/
theorem C1_witness :
    feedChunks parseCex []
      [(frameBytes frame2cex).take 30, (frameBytes frame2cex).drop 30]
      = ([], [2]) := by
  exact C1_amended_theorem parseCex [frame2cex]
    [(frameBytes frame2cex).take 30, (frameBytes frame2cex).drop 30] [2]
    (by decide) (by decide) (by decide) (by decide)

/- ===================== Claim C9 ======================================== -/

theorem handleData_eq {Msg : Type} (parse : List Char → Option Msg)
    (buffer chunk : List Char) :
    handleData parse buffer chunk =
      processBuffer parse
        (if MAX_BUFFER_SIZE < (buffer ++ chunk).length then
          (buffer ++ chunk).drop ((buffer ++ chunk).length - MAX_BUFFER_SIZE)
        else buffer ++ chunk) := rfl

theorem matchHeader_cons_a (l : List Char) : matchHeader ('a' :: l) = none := by
  unfold matchHeader
  rw [if_neg]
  intro h
  obtain ⟨t, ht⟩ := (isPrefixOf_iff_Pre _ _).mp h
  have hh : headerLit = 'C' :: "ontent-Length: ".toList := by rfl
  rw [hh] at ht
  simp only [List.cons_append, List.cons.injEq] at ht
  exact absurd ht.1 (by decide)

theorem processBuffer_cons_a (parse : List Char → Option Msg) (l : List Char) :
    processBuffer parse ('a' :: l) = ('a' :: l, []) := by
  unfold processBuffer
  simp [processFuel, matchHeader_cons_a]

/-- Claim C9, counterexample.  The claim says the decoder "discards the
    entire advertised-length region of the stream (all declared payload
    bytes, including any that have not yet arrived in the buffer), resuming
    decoding at the first byte past that region."  Feed the oversized header
    alone, then the 10485761 advertised bytes followed by a valid frame: were
    the claim true, the valid frame past the region would decode to its
    message; in fact line 69 only drops what is currently buffered, the
    late-arriving region bytes desynchronize the stream, and nothing is ever
    emitted. -/
theorem C9_counterexample :
    (MAX_BUFFER_SIZE < 10485761 ∧
      chunkC9a = headerLit ++ "10485761".toList ++ crlf2 ∧
      digitsToNat "10485761".toList = 10485761 ∧
      ValidFrame frameC9 ∧ parseC9 frameC9.payload = some 2 ∧
      chunkC9b = List.replicate 10485761 'a' ++ frameBytes frameC9) ∧
    (feedChunks parseC9 [] [chunkC9a, chunkC9b]).2 = [] := by
  constructor
  · exact ⟨by decide, by decide, by decide, by decide, by decide, rfl⟩
  · have h1 : handleData parseC9 [] chunkC9a = ([], []) := by decide
    have hfb : (frameBytes frameC9).length = 52 := by decide
    have hlen2 : chunkC9b.length = 10485813 := by
      simp only [chunkC9b, List.length_append, List.length_replicate, hfb]
    have htrunc : MAX_BUFFER_SIZE < chunkC9b.length := by
      rw [hlen2]
      decide
    have hdrop : chunkC9b.drop (chunkC9b.length - MAX_BUFFER_SIZE)
        = List.replicate 10485708 'a' ++ frameBytes frameC9 := by
      rw [hlen2]
      have h53 : 10485813 - MAX_BUFFER_SIZE = 53 := by norm_num [MAX_BUFFER_SIZE]
      rw [h53]
      unfold chunkC9b
      rw [List.drop_append_of_le_length (by rw [List.length_replicate]; norm_num)]
      rw [List.drop_replicate]
    have hsplit : List.replicate 10485708 'a' ++ frameBytes frameC9
        = 'a' :: (List.replicate 10485707 'a' ++ frameBytes frameC9) := by
      rw [show (10485708 : Nat) = 10485707 + 1 from rfl, List.replicate_succ]
      rfl
    have h2 : handleData parseC9 [] chunkC9b
        = (List.replicate 10485708 'a' ++ frameBytes frameC9, []) := by
      rw [handleData_eq, List.nil_append, if_pos htrunc, hdrop, hsplit]
      exact processBuffer_cons_a parseC9 _
    simp only [feedChunks, h1, h2, List.append_nil]

/-- Claim C9, amended.  When the buffer begins with a header whose declared
    length exceeds the enforced maximum, the event is logged and the decode
    step sets the buffer to whatever lies past headerEnd + contentLength —
    since the declared length exceeds the cap and the buffer never holds
    more than the cap, this always empties the buffer (only the buffered
    portion of the region is discarded) and emits nothing; bytes of the
    region that arrive later are treated as fresh stream data rather than
    being skipped. -/
theorem C9_amended_theorem {Msg : Type} (parse : List Char → Option Msg)
    (ds X : List Char) (hds : ds ≠ []) (hdig : ∀ c ∈ ds, c.isDigit = true)
    (hbig : MAX_BUFFER_SIZE < digitsToNat ds)
    (hcap : (headerLit ++ ds ++ crlf2 ++ X).length ≤ MAX_BUFFER_SIZE) :
    processBuffer parse (headerLit ++ ds ++ crlf2 ++ X) = ([], []) := by
  have hm := matchHeader_header ds hds hdig X
  have hdrop : (headerLit ++ ds ++ crlf2 ++ X).drop
      (headerLit.length + ds.length + crlf2.length + digitsToNat ds) = [] :=
    List.drop_eq_nil_of_le (by omega)
  unfold processBuffer
  generalize hbuf : headerLit ++ ds ++ crlf2 ++ X = buf at hm hdrop hcap
  simp only [processFuel, hm]
  rw [if_pos hbig, hdrop]
  exact processFuel_nil parse _

/-- Claim C9 witness: the concrete oversized header alone is wholly
    discarded, leaving an empty buffer and no message. -/
theorem C9_witness :
    processBuffer parseC9 (headerLit ++ "10485761".toList ++ crlf2 ++ [])
      = ([], []) :=
  C9_amended_theorem parseC9 "10485761".toList [] (by decide) (by decide)
    (by decide) (by decide)

/- ===================== Correlator lemmas (claims C2, C3) =============== -/

theorem find?_filter_of_imp {α : Type} (p q : α → Bool)
    (h : ∀ a, p a = true → q a = true) :
    ∀ l : List α, (l.filter q).find? p = l.find? p := by
  intro l
  induction l with
  | nil => rfl
  | cons x xs ih =>
    cases hp : p x with
    | true =>
      rw [List.filter_cons_of_pos (h x hp), List.find?_cons_of_pos _ hp,
        List.find?_cons_of_pos _ hp]
    | false =>
      cases hq : q x with
      | true =>
        rw [List.filter_cons_of_pos hq, List.find?_cons_of_neg _ (by simp [hp]),
          List.find?_cons_of_neg _ (by simp [hp]), ih]
      | false =>
        rw [List.filter_cons_of_neg (by simp [hq]),
          List.find?_cons_of_neg _ (by simp [hp]), ih]

theorem findPending_eq_some {ps : List PendingCall} {i : Nat} {p : PendingCall}
    (h : findPending ps i = some p) : p ∈ ps ∧ p.id = i := by
  unfold findPending at h
  exact ⟨List.mem_of_find?_eq_some h, by simpa using List.find?_some h⟩

theorem findPending_mem {ps : List PendingCall} {p : PendingCall} (hp : p ∈ ps) :
    ∃ q, findPending ps p.id = some q := by
  have h : (ps.find? (fun q => q.id == p.id)).isSome :=
    List.find?_isSome.mpr ⟨p, hp, by simp⟩
  unfold findPending
  cases hf : ps.find? (fun q => q.id == p.id) with
  | none => rw [hf] at h; simp at h
  | some q => exact ⟨q, rfl⟩

theorem findPending_none_of {ps : List PendingCall} {i : Nat}
    (h : ∀ p ∈ ps, p.id ≠ i) : findPending ps i = none := by
  unfold findPending
  exact List.find?_eq_none.mpr (fun p hp => by simpa using h p hp)

theorem findPending_removePending_ne (ps : List PendingCall) (i j : Nat)
    (hij : i ≠ j) : findPending (removePending ps j) i = findPending ps i := by
  unfold findPending removePending
  exact find?_filter_of_imp _ _
    (fun p hp => by
      simp only [beq_iff_eq] at hp
      simp [bne_iff_ne, hp, hij]) ps

theorem findTimer_eq_some {ts : List (Nat × Nat × Nat)} {t : Nat}
    {ct : Nat × Nat} (h : findTimer ts t = some ct) : (t, ct) ∈ ts := by
  unfold findTimer at h
  cases hf : ts.find? (fun e => e.1 == t) with
  | none => rw [hf] at h; simp at h
  | some a =>
    rw [hf] at h
    have ha1 : a.1 = t := by simpa using List.find?_some hf
    have ha2 : a.2 = ct := by simpa using h
    have ham := List.mem_of_find?_eq_some hf
    rw [← ha1, ← ha2]
    simpa using ham

theorem settledFor_snoc_ne (s : CorrState) (t : Nat) (o : Outcome) (tok : Nat)
    (hne : t ≠ tok) :
    settledFor tok { s with settled := s.settled ++ [(t, o)] }
      = settledFor tok s := by
  simp [settledFor, List.filter_append, hne]

theorem settledFor_snoc_self (s : CorrState) (tok : Nat) (o : Outcome) :
    settledFor tok { s with settled := s.settled ++ [(tok, o)] }
      = settledFor tok s ++ [(tok, o)] := by
  simp [settledFor, List.filter_append]

/-- CorrInv is preserved by every non-restart event. -/
theorem corrInv_step (s : CorrState) (e : CorrEvent) (hinv : CorrInv s)
    (hnr : e ≠ CorrEvent.restartReset) : CorrInv (stepCorr s e) := by
  obtain ⟨hbound, hpw, hap, hpa, hsb⟩ := hinv
  have hpw2 : ∀ p ∈ s.pending, ∀ q ∈ s.pending, p ≠ q →
      p.id ≠ q.id ∧ p.token ≠ q.token ∧ p.timer ≠ q.timer := by
    intro p hp q hq hpq
    have hsym : Symmetric (fun (a b : PendingCall) =>
        a.id ≠ b.id ∧ a.token ≠ b.token ∧ a.timer ≠ b.timer) := by
      intro a b hab
      exact ⟨hab.1.symm, hab.2.1.symm, hab.2.2.symm⟩
    exact hpw.forall hsym hp hq hpq
  cases e with
  | restartReset => exact absurd rfl hnr
  | send =>
    refine ⟨?_, ?_, ?_, ?_, ?_⟩
    · intro p hp
      simp only [stepCorr, List.mem_cons] at hp ⊢
      rcases hp with rfl | hp
      · simp
      · obtain ⟨h1, h2, h3⟩ := hbound p hp
        omega
    · simp only [stepCorr]
      refine List.Pairwise.cons ?_ hpw
      intro q hq
      obtain ⟨h1, h2, h3⟩ := hbound q hq
      refine ⟨?_, ?_, ?_⟩
      · show s.nextId ≠ q.id
        omega
      · show s.nextToken ≠ q.token
        omega
      · show s.nextTimer ≠ q.timer
        omega
    · intro a ha
      simp only [stepCorr, List.mem_cons] at ha ⊢
      rcases ha with rfl | ha
      · exact ⟨⟨s.nextId, s.nextToken, s.nextTimer⟩, Or.inl rfl, rfl⟩
      · obtain ⟨p, hp, rfl⟩ := hap a ha
        exact ⟨p, Or.inr hp, rfl⟩
    · intro p hp
      simp only [stepCorr, List.mem_cons] at hp ⊢
      rcases hp with rfl | hp
      · exact Or.inl rfl
      · exact Or.inr (hpa p hp)
    · intro a ha
      simp only [stepCorr] at ha ⊢
      have := hsb a ha
      omega
  | resp i out =>
    cases hf : findPending s.pending i with
    | none => simpa [stepCorr, hf] using ⟨hbound, hpw, hap, hpa, hsb⟩
    | some p =>
      obtain ⟨hpm, hpid⟩ := findPending_eq_some hf
      simp only [stepCorr, hf]
      refine ⟨?_, ?_, ?_, ?_, ?_⟩
      · intro q hq
        exact hbound q (List.mem_of_mem_filter hq)
      · exact hpw.filter _
      · intro a ha
        have ham := List.mem_of_mem_filter ha
        obtain ⟨q, hq, rfl⟩ := hap a ham
        refine ⟨q, ?_, rfl⟩
        have hqp : q ≠ p := by
          intro h
          subst h
          have := (List.mem_filter.mp ha).2
          simp [bne_iff_ne] at this
        have hqid : q.id ≠ p.id := (hpw2 q hq p hpm hqp).1
        refine List.mem_filter.mpr ⟨hq, ?_⟩
        simp only [bne_iff_ne, ne_eq, decide_not]
        simp [hpid ▸ hqid]
      · intro q hq
        have hqm := List.mem_of_mem_filter hq
        have hqne : q.id ≠ i := by
          have := (List.mem_filter.mp hq).2
          simpa [bne_iff_ne] using this
        have hqp : q ≠ p := fun h => hqne (h ▸ hpid)
        have htne : q.timer ≠ p.timer := (hpw2 q hqm p hpm hqp).2.2
        refine List.mem_filter.mpr ⟨hpa q hqm, ?_⟩
        simp [bne_iff_ne, htne]
      · intro a ha
        simp only [List.mem_append, List.mem_singleton] at ha
        rcases ha with ha | rfl
        · exact hsb a ha
        · exact (hbound p hpm).2.1
  | fire t =>
    cases hft : findTimer s.armed t with
    | none => simpa [stepCorr, hft] using ⟨hbound, hpw, hap, hpa, hsb⟩
    | some ct =>
      have hmem := findTimer_eq_some hft
      obtain ⟨pw, hpwmem, hpweq⟩ := hap (t, ct) hmem
      have hteq : pw.timer = t := (congrArg Prod.fst hpweq).symm
      have hcid : ct.1 = pw.id := by
        have := congrArg (fun x => x.2.1) hpweq
        simpa using this
      have hctok : ct.2 = pw.token := by
        have := congrArg (fun x => x.2.2) hpweq
        simpa using this
      cases hfp : findPending s.pending ct.1 with
      | none =>
        exfalso
        obtain ⟨q, hq⟩ := findPending_mem hpwmem
        rw [← hcid, hfp] at hq
        simp at hq
      | some p2 =>
        obtain ⟨hp2m, hp2id⟩ := findPending_eq_some hfp
        have hp2pw : p2 = pw := by
          by_contra hne
          exact (hpw2 p2 hp2m pw hpwmem hne).1 (hp2id.trans hcid)
        simp only [stepCorr, hft, hfp]
        refine ⟨?_, ?_, ?_, ?_, ?_⟩
        · intro q hq
          exact hbound q (List.mem_of_mem_filter hq)
        · exact hpw.filter _
        · intro a ha
          have ham := List.mem_of_mem_filter ha
          obtain ⟨q, hq, rfl⟩ := hap a ham
          refine ⟨q, ?_, rfl⟩
          have hqpw : q ≠ pw := by
            intro h
            subst h
            have := (List.mem_filter.mp ha).2
            simp [bne_iff_ne, hteq] at this
          have hqid : q.id ≠ p2.id := (hpw2 q hq p2 hp2m (hp2pw ▸ hqpw)).1
          refine List.mem_filter.mpr ⟨hq, ?_⟩
          simp [bne_iff_ne, hp2id ▸ hqid]
        · intro q hq
          have hqm := List.mem_of_mem_filter hq
          have hqne : q.id ≠ ct.1 := by
            have := (List.mem_filter.mp hq).2
            simpa [bne_iff_ne] using this
          have hqpw : q ≠ pw := by
            intro h
            exact hqne ((h ▸ rfl : q.id = pw.id).trans hcid.symm)
          have hqt : q.timer ≠ t := by
            intro hqt
            exact (hpw2 q hqm pw hpwmem hqpw).2.2 (hqt.trans hteq.symm)
          refine List.mem_filter.mpr ⟨hpa q hqm, ?_⟩
          simp [bne_iff_ne, hqt]
        · intro a ha
          simp only [List.mem_append, List.mem_singleton] at ha
          rcases ha with ha | rfl
          · exact hsb a ha
          · exact hctok ▸ (hbound pw hpwmem).2.1

theorem corrInv_init : CorrInv corrInit := by
  unfold CorrInv corrInit
  simp

theorem reachNR_corrInv {s : CorrState} (h : ReachNR s) : CorrInv s := by
  induction h with
  | init => exact corrInv_init
  | step s e hs hne ih => exact corrInv_step s e ih hne

theorem pairwise2_of_corrInv {s : CorrState} (hinv : CorrInv s) :
    ∀ p ∈ s.pending, ∀ q ∈ s.pending, p ≠ q →
      p.id ≠ q.id ∧ p.token ≠ q.token ∧ p.timer ≠ q.timer := by
  intro p hp q hq hpq
  have hsym : Symmetric (fun (a b : PendingCall) =>
      a.id ≠ b.id ∧ a.token ≠ b.token ∧ a.timer ≠ b.timer) := by
    intro a b hab
    exact ⟨hab.1.symm, hab.2.1.symm, hab.2.2.symm⟩
  exact hinv.2.1.forall hsym hp hq hpq

/-- While the in-flight request is untouched, its live state is preserved by
    every other non-restart event. -/
theorem pendingLive_step (s : CorrState) (i tok tmr : Nat) (e : CorrEvent)
    (hP : PendingLive s i tok tmr)
    (hu : (∀ out, e ≠ CorrEvent.resp i out) ∧ e ≠ CorrEvent.fire tmr)
    (hnr : e ≠ CorrEvent.restartReset) :
    PendingLive (stepCorr s e) i tok tmr := by
  obtain ⟨hinv, hfind, harm, hset, hi, htok, htmr⟩ := hP
  have hinv2 := corrInv_step s e hinv hnr
  obtain ⟨hp0m, -⟩ := findPending_eq_some hfind
  have hpw2 := pairwise2_of_corrInv hinv
  cases e with
  | restartReset => exact absurd rfl hnr
  | send =>
    have hst : stepCorr s CorrEvent.send =
        { s with
          nextId := s.nextId + 1
          pending := ⟨s.nextId, s.nextToken, s.nextTimer⟩ :: s.pending
          armed := (s.nextTimer, s.nextId, s.nextToken) :: s.armed
          nextToken := s.nextToken + 1
          nextTimer := s.nextTimer + 1
          assigned := (s.gen, s.nextId) :: s.assigned } := rfl
    rw [hst]
    refine ⟨hst ▸ hinv2, ?_, ?_, ?_, by show i < s.nextId + 1; omega,
      by show tok < s.nextToken + 1; omega, by show tmr < s.nextTimer + 1; omega⟩
    · unfold findPending
      rw [List.find?_cons_of_neg _ (by simp; omega)]
      exact hfind
    · exact List.mem_cons_of_mem _ harm
    · unfold settledFor at hset ⊢
      exact hset
  | resp j out =>
    have hji : j ≠ i := by
      intro h
      exact (hu.1 out) (by rw [h])
    cases hf : findPending s.pending j with
    | none =>
      have hst : stepCorr s (CorrEvent.resp j out) = s := by
        simp [stepCorr, hf]
      rw [hst]
      exact ⟨hinv, hfind, harm, hset, hi, htok, htmr⟩
    | some p =>
      obtain ⟨hpm, hpid⟩ := findPending_eq_some hf
      have hpne : p ≠ ⟨i, tok, tmr⟩ := by
        intro h
        rw [h] at hpid
        exact hji hpid.symm
      have hdiff := hpw2 p hpm ⟨i, tok, tmr⟩ hp0m hpne
      have hst : stepCorr s (CorrEvent.resp j out) =
          { s with
            pending := removePending s.pending j
            armed := removeTimer s.armed p.timer
            settled := s.settled ++ [(p.token, outcomeOfResp out)] } := by
        simp [stepCorr, hf]
      rw [hst]
      refine ⟨hst ▸ hinv2, ?_, ?_, ?_, hi, htok, htmr⟩
      · show findPending (removePending s.pending j) i = some ⟨i, tok, tmr⟩
        rw [findPending_removePending_ne s.pending i j (fun h => hji h.symm)]
        exact hfind
      · show (tmr, i, tok) ∈ removeTimer s.armed p.timer
        refine List.mem_filter.mpr ⟨harm, ?_⟩
        have hne : tmr ≠ p.timer := fun h => hdiff.2.2 h.symm
        simp [bne_iff_ne, hne]
      · exact (settledFor_snoc_ne s p.token _ tok hdiff.2.1).trans hset
  | fire t =>
    have httmr : t ≠ tmr := by
      intro h
      exact hu.2 (by rw [h])
    cases hft : findTimer s.armed t with
    | none =>
      have hst : stepCorr s (CorrEvent.fire t) = s := by
        simp [stepCorr, hft]
      rw [hst]
      exact ⟨hinv, hfind, harm, hset, hi, htok, htmr⟩
    | some ct =>
      have hmem := findTimer_eq_some hft
      obtain ⟨pw, hpwmem, hpweq⟩ := hinv.2.2.1 (t, ct) hmem
      have hteq : pw.timer = t := (congrArg Prod.fst hpweq).symm
      have hcid : ct.1 = pw.id := by
        have := congrArg (fun x => x.2.1) hpweq
        simpa using this
      have hctok : ct.2 = pw.token := by
        have := congrArg (fun x => x.2.2) hpweq
        simpa using this
      have hpwne : pw ≠ ⟨i, tok, tmr⟩ := by
        intro h
        apply httmr
        rw [← hteq, h]
      have hdiff := hpw2 pw hpwmem ⟨i, tok, tmr⟩ hp0m hpwne
      cases hfp : findPending s.pending ct.1 with
      | none =>
        exfalso
        obtain ⟨q, hq⟩ := findPending_mem hpwmem
        rw [← hcid, hfp] at hq
        simp at hq
      | some p2 =>
        have hst : stepCorr s (CorrEvent.fire t) =
            { s with
              pending := removePending s.pending ct.1
              armed := removeTimer s.armed t
              settled := s.settled ++ [(ct.2, Outcome.rejectedTimeout)] } := by
          simp [stepCorr, hft, hfp]
        rw [hst]
        refine ⟨hst ▸ hinv2, ?_, ?_, ?_, hi, htok, htmr⟩
        · show findPending (removePending s.pending ct.1) i = some ⟨i, tok, tmr⟩
          rw [findPending_removePending_ne s.pending i ct.1
            (by rw [hcid]; exact fun h => hdiff.1 h.symm)]
          exact hfind
        · show (tmr, i, tok) ∈ removeTimer s.armed t
          refine List.mem_filter.mpr ⟨harm, ?_⟩
          have hne : tmr ≠ t := fun h => httmr h.symm
          simp [bne_iff_ne, hne]
        · rw [hctok]
          exact (settledFor_snoc_ne s pw.token _ tok hdiff.2.1).trans hset

/-- After a promise is settled and its call removed, no later non-restart
    event revives or resettles it. -/
theorem retired_step (s : CorrState) (tok i : Nat) (e : CorrEvent)
    (ht : TokenRetired s tok) (hi : IdRetired s i)
    (hnr : e ≠ CorrEvent.restartReset) :
    TokenRetired (stepCorr s e) tok ∧ IdRetired (stepCorr s e) i ∧
    settledFor tok (stepCorr s e) = settledFor tok s := by
  obtain ⟨htp, hta, htn⟩ := ht
  obtain ⟨hip, hia, hin⟩ := hi
  cases e with
  | restartReset => exact absurd rfl hnr
  | send =>
    have hst : stepCorr s CorrEvent.send =
        { s with
          nextId := s.nextId + 1
          pending := ⟨s.nextId, s.nextToken, s.nextTimer⟩ :: s.pending
          armed := (s.nextTimer, s.nextId, s.nextToken) :: s.armed
          nextToken := s.nextToken + 1
          nextTimer := s.nextTimer + 1
          assigned := (s.gen, s.nextId) :: s.assigned } := rfl
    rw [hst]
    refine ⟨⟨?_, ?_, by show tok < s.nextToken + 1; omega⟩,
      ⟨?_, ?_, by show i < s.nextId + 1; omega⟩, rfl⟩
    · intro p hp
      rcases List.mem_cons.mp hp with rfl | hp
      · show s.nextToken ≠ tok
        omega
      · exact htp p hp
    · intro a ha
      rcases List.mem_cons.mp ha with rfl | ha
      · show s.nextToken ≠ tok
        omega
      · exact hta a ha
    · intro p hp
      rcases List.mem_cons.mp hp with rfl | hp
      · show s.nextId ≠ i
        omega
      · exact hip p hp
    · intro a ha
      rcases List.mem_cons.mp ha with rfl | ha
      · show s.nextId ≠ i
        omega
      · exact hia a ha
  | resp j out =>
    cases hf : findPending s.pending j with
    | none =>
      have hst : stepCorr s (CorrEvent.resp j out) = s := by
        simp [stepCorr, hf]
      rw [hst]
      exact ⟨⟨htp, hta, htn⟩, ⟨hip, hia, hin⟩, rfl⟩
    | some p =>
      obtain ⟨hpm, -⟩ := findPending_eq_some hf
      have hst : stepCorr s (CorrEvent.resp j out) =
          { s with
            pending := removePending s.pending j
            armed := removeTimer s.armed p.timer
            settled := s.settled ++ [(p.token, outcomeOfResp out)] } := by
        simp [stepCorr, hf]
      rw [hst]
      refine ⟨⟨?_, ?_, htn⟩, ⟨?_, ?_, hin⟩, ?_⟩
      · intro q hq
        exact htp q (List.mem_of_mem_filter hq)
      · intro a ha
        exact hta a (List.mem_of_mem_filter ha)
      · intro q hq
        exact hip q (List.mem_of_mem_filter hq)
      · intro a ha
        exact hia a (List.mem_of_mem_filter ha)
      · exact settledFor_snoc_ne s p.token _ tok (htp p hpm)
  | fire t =>
    cases hft : findTimer s.armed t with
    | none =>
      have hst : stepCorr s (CorrEvent.fire t) = s := by
        simp [stepCorr, hft]
      rw [hst]
      exact ⟨⟨htp, hta, htn⟩, ⟨hip, hia, hin⟩, rfl⟩
    | some ct =>
      have hmem := findTimer_eq_some hft
      have hct2 : ct.2 ≠ tok := hta (t, ct) hmem
      cases hfp : findPending s.pending ct.1 with
      | none =>
        have hst : stepCorr s (CorrEvent.fire t) =
            { s with armed := removeTimer s.armed t } := by
          simp [stepCorr, hft, hfp]
        rw [hst]
        refine ⟨⟨htp, ?_, htn⟩, ⟨hip, ?_, hin⟩, rfl⟩
        · intro a ha
          exact hta a (List.mem_of_mem_filter ha)
        · intro a ha
          exact hia a (List.mem_of_mem_filter ha)
      | some p2 =>
        have hst : stepCorr s (CorrEvent.fire t) =
            { s with
              pending := removePending s.pending ct.1
              armed := removeTimer s.armed t
              settled := s.settled ++ [(ct.2, Outcome.rejectedTimeout)] } := by
          simp [stepCorr, hft, hfp]
        rw [hst]
        refine ⟨⟨?_, ?_, htn⟩, ⟨?_, ?_, hin⟩, ?_⟩
        · intro q hq
          exact htp q (List.mem_of_mem_filter hq)
        · intro a ha
          exact hta a (List.mem_of_mem_filter ha)
        · intro q hq
          exact hip q (List.mem_of_mem_filter hq)
        · intro a ha
          exact hia a (List.mem_of_mem_filter ha)
        · exact settledFor_snoc_ne s ct.2 _ tok hct2

theorem runCorr_append (s : CorrState) (xs ys : List CorrEvent) :
    runCorr s (xs ++ ys) = runCorr (runCorr s xs) ys :=
  List.foldl_append _ _ _ _

theorem runCorr_cons (s : CorrState) (e : CorrEvent) (ys : List CorrEvent) :
    runCorr s (e :: ys) = runCorr (stepCorr s e) ys := rfl

theorem pendingLive_run (s : CorrState) (i tok tmr : Nat)
    (evs : List CorrEvent) (hP : PendingLive s i tok tmr)
    (hu : Untouched i tmr evs) (hnr : NoRestart evs) :
    PendingLive (runCorr s evs) i tok tmr := by
  induction evs generalizing s with
  | nil => exact hP
  | cons e es ih =>
    rw [runCorr_cons]
    exact ih (stepCorr s e)
      (pendingLive_step s i tok tmr e hP (hu e (by simp)) (hnr e (by simp)))
      (fun e2 he2 => hu e2 (by simp [he2]))
      (fun e2 he2 => hnr e2 (by simp [he2]))

theorem retired_run (s : CorrState) (tok i : Nat) (evs : List CorrEvent)
    (ht : TokenRetired s tok) (hi : IdRetired s i) (hnr : NoRestart evs) :
    TokenRetired (runCorr s evs) tok ∧ IdRetired (runCorr s evs) i ∧
    settledFor tok (runCorr s evs) = settledFor tok s := by
  induction evs generalizing s with
  | nil => exact ⟨ht, hi, rfl⟩
  | cons e es ih =>
    rw [runCorr_cons]
    obtain ⟨h1, h2, h3⟩ := retired_step s tok i e ht hi (hnr e (by simp))
    obtain ⟨h4, h5, h6⟩ := ih (stepCorr s e) h1 h2
      (fun e2 he2 => hnr e2 (by simp [he2]))
    exact ⟨h4, h5, h6.trans h3⟩

/-- Response arrival settles a live request: the promise resolves or rejects
    per the payload (handleMessage lines 144-148), the entry is deleted, its
    timer cleared, and both the id and the token are fully retired. -/
theorem settle_resp (s : CorrState) (i tok tmr : Nat) (out : RespOut)
    (hP : PendingLive s i tok tmr) :
    settledFor tok (stepCorr s (CorrEvent.resp i out))
      = [(tok, outcomeOfResp out)] ∧
    TokenRetired (stepCorr s (CorrEvent.resp i out)) tok ∧
    IdRetired (stepCorr s (CorrEvent.resp i out)) i := by
  obtain ⟨hinv, hfind, harm, hset, hi, htok, htmr⟩ := hP
  have hpw2 := pairwise2_of_corrInv hinv
  obtain ⟨hp0m, -⟩ := findPending_eq_some hfind
  have hst : stepCorr s (CorrEvent.resp i out) =
      { s with
        pending := removePending s.pending i
        armed := removeTimer s.armed tmr
        settled := s.settled ++ [(tok, outcomeOfResp out)] } := by
    simp [stepCorr, hfind]
  rw [hst]
  have hq0 : ∀ q ∈ removePending s.pending i, q ≠ (⟨i, tok, tmr⟩ : PendingCall) := by
    intro q hq hqe
    have := (List.mem_filter.mp hq).2
    rw [hqe] at this
    simp [bne_iff_ne] at this
  refine ⟨?_, ⟨?_, ?_, htok⟩, ⟨?_, ?_, hi⟩⟩
  · have h1 : settledFor tok
        { s with
          pending := removePending s.pending i
          armed := removeTimer s.armed tmr
          settled := s.settled ++ [(tok, outcomeOfResp out)] }
        = settledFor tok s ++ [(tok, outcomeOfResp out)] :=
      settledFor_snoc_self s tok _
    rw [h1, hset]
    rfl
  · intro q hq
    exact (hpw2 q (List.mem_of_mem_filter hq) _ hp0m (hq0 q hq)).2.1
  · intro a ha
    have ham := List.mem_of_mem_filter ha
    obtain ⟨q, hq, rfl⟩ := hinv.2.2.1 a ham
    intro hqtok
    have hqp0 : q = ⟨i, tok, tmr⟩ := by
      by_contra hne
      exact (hpw2 q hq _ hp0m hne).2.1 hqtok
    have := (List.mem_filter.mp ha).2
    rw [hqp0] at this
    simp [bne_iff_ne] at this
  · intro q hq
    exact (hpw2 q (List.mem_of_mem_filter hq) _ hp0m (hq0 q hq)).1
  · intro a ha
    have ham := List.mem_of_mem_filter ha
    obtain ⟨q, hq, rfl⟩ := hinv.2.2.1 a ham
    intro hqid
    have hqp0 : q = ⟨i, tok, tmr⟩ := by
      by_contra hne
      exact (hpw2 q hq _ hp0m hne).1 hqid
    have := (List.mem_filter.mp ha).2
    rw [hqp0] at this
    simp [bne_iff_ne] at this

/-- The timeout firing settles a live request: its closure finds the entry,
    deletes it and rejects the promise with a timeout error (sendRequest
    lines 235-240); id and token are fully retired. -/
theorem settle_fire (s : CorrState) (i tok tmr : Nat)
    (hP : PendingLive s i tok tmr) :
    settledFor tok (stepCorr s (CorrEvent.fire tmr))
      = [(tok, Outcome.rejectedTimeout)] ∧
    TokenRetired (stepCorr s (CorrEvent.fire tmr)) tok ∧
    IdRetired (stepCorr s (CorrEvent.fire tmr)) i := by
  obtain ⟨hinv, hfind, harm, hset, hi, htok, htmr⟩ := hP
  have hpw2 := pairwise2_of_corrInv hinv
  obtain ⟨hp0m, -⟩ := findPending_eq_some hfind
  -- the armed entry found for this timer is exactly ours
  have hfta : findTimer s.armed tmr = some (i, tok) := by
    unfold findTimer
    cases hf2 : s.armed.find? (fun e => e.1 == tmr) with
    | none =>
      exfalso
      have : (s.armed.find? (fun e => e.1 == tmr)).isSome :=
        List.find?_isSome.mpr ⟨(tmr, i, tok), harm, by simp⟩
      rw [hf2] at this
      simp at this
    | some a =>
      have ha1 : a.1 = tmr := by simpa using List.find?_some hf2
      have ham := List.mem_of_find?_eq_some hf2
      obtain ⟨q, hq, rfl⟩ := hinv.2.2.1 a ham
      have hqp0 : q = ⟨i, tok, tmr⟩ := by
        by_contra hne
        exact (hpw2 q hq _ hp0m hne).2.2 ha1
      rw [hqp0]
      simp
  have hst : stepCorr s (CorrEvent.fire tmr) =
      { s with
        pending := removePending s.pending i
        armed := removeTimer s.armed tmr
        settled := s.settled ++ [(tok, Outcome.rejectedTimeout)] } := by
    simp [stepCorr, hfta, hfind]
  rw [hst]
  have hq0 : ∀ q ∈ removePending s.pending i, q ≠ (⟨i, tok, tmr⟩ : PendingCall) := by
    intro q hq hqe
    have := (List.mem_filter.mp hq).2
    rw [hqe] at this
    simp [bne_iff_ne] at this
  refine ⟨?_, ⟨?_, ?_, htok⟩, ⟨?_, ?_, hi⟩⟩
  · have h1 : settledFor tok
        { s with
          pending := removePending s.pending i
          armed := removeTimer s.armed tmr
          settled := s.settled ++ [(tok, Outcome.rejectedTimeout)] }
        = settledFor tok s ++ [(tok, Outcome.rejectedTimeout)] :=
      settledFor_snoc_self s tok _
    rw [h1, hset]
    rfl
  · intro q hq
    exact (hpw2 q (List.mem_of_mem_filter hq) _ hp0m (hq0 q hq)).2.1
  · intro a ha
    have ham := List.mem_of_mem_filter ha
    obtain ⟨q, hq, rfl⟩ := hinv.2.2.1 a ham
    intro hqtok
    have hqp0 : q = ⟨i, tok, tmr⟩ := by
      by_contra hne
      exact (hpw2 q hq _ hp0m hne).2.1 hqtok
    have := (List.mem_filter.mp ha).2
    rw [hqp0] at this
    simp [bne_iff_ne] at this
  · intro q hq
    exact (hpw2 q (List.mem_of_mem_filter hq) _ hp0m (hq0 q hq)).1
  · intro a ha
    have ham := List.mem_of_mem_filter ha
    obtain ⟨q, hq, rfl⟩ := hinv.2.2.1 a ham
    intro hqid
    have hqp0 : q = ⟨i, tok, tmr⟩ := by
      by_contra hne
      exact (hpw2 q hq _ hp0m hne).1 hqid
    have := (List.mem_filter.mp ha).2
    rw [hqp0] at this
    simp [bne_iff_ne] at this

/-- A fresh sendRequest yields a live request for the assigned id, token and
    timer (sendRequest lines 215, 233-253). -/
theorem pendingLive_send (s : CorrState) (hinv : CorrInv s) :
    PendingLive (stepCorr s CorrEvent.send) s.nextId s.nextToken s.nextTimer := by
  refine ⟨corrInv_step s CorrEvent.send hinv (by simp), ?_, ?_, ?_,
    by show s.nextId < s.nextId + 1; omega,
    by show s.nextToken < s.nextToken + 1; omega,
    by show s.nextTimer < s.nextTimer + 1; omega⟩
  · show findPending (⟨s.nextId, s.nextToken, s.nextTimer⟩ :: s.pending) s.nextId
      = some ⟨s.nextId, s.nextToken, s.nextTimer⟩
    unfold findPending
    rw [List.find?_cons_of_pos _ (by simp)]
  · show (s.nextTimer, s.nextId, s.nextToken) ∈
      (s.nextTimer, s.nextId, s.nextToken) :: s.armed
    exact List.mem_cons_self _ _
  · unfold settledFor
    refine List.filter_eq_nil_iff.mpr ?_
    intro a ha
    have haa : a ∈ s.settled := ha
    have := hinv.2.2.2.2 a haa
    simp only [beq_iff_eq]
    omega

/- ===================== Claim C2 ======================================== -/

/-- Claim C2.  For a request sent by sendRequest (assigned id, promise token
    and timer from the current counters): if a well-formed Response with the
    matching id arrives before the request's timeout fires — with any other
    non-restart traffic interleaved — the promise settles exactly once,
    resolving with the result or rejecting with the error per the payload,
    and the pending entry is removed; if instead the timeout fires first, the
    promise rejects exactly once with the timeout error, the entry is
    removed, and a late Response for that id is ignored (the settlement log
    for the promise stays a singleton through any further events `ys`, which
    may include such late responses). -/
theorem C2_theorem (s : CorrState) (hreach : ReachNR s)
    (xs ys : List CorrEvent) (out : RespOut)
    (hxsU : Untouched s.nextId s.nextTimer xs)
    (hxsR : NoRestart xs) (hysR : NoRestart ys) :
    (settledFor s.nextToken
        (runCorr (stepCorr s CorrEvent.send)
          (xs ++ CorrEvent.resp s.nextId out :: ys))
      = [(s.nextToken, outcomeOfResp out)] ∧
     findPending (runCorr (stepCorr s CorrEvent.send)
        (xs ++ CorrEvent.resp s.nextId out :: ys)).pending s.nextId = none) ∧
    (settledFor s.nextToken
        (runCorr (stepCorr s CorrEvent.send)
          (xs ++ CorrEvent.fire s.nextTimer :: ys))
      = [(s.nextToken, Outcome.rejectedTimeout)] ∧
     findPending (runCorr (stepCorr s CorrEvent.send)
        (xs ++ CorrEvent.fire s.nextTimer :: ys)).pending s.nextId = none) := by
  have hinv := reachNR_corrInv hreach
  have hlive0 := pendingLive_send s hinv
  have hliveXs := pendingLive_run (stepCorr s CorrEvent.send)
    s.nextId s.nextToken s.nextTimer xs hlive0 hxsU hxsR
  constructor
  · have hsettle := settle_resp _ s.nextId s.nextToken s.nextTimer out hliveXs
    have hrun : runCorr (stepCorr s CorrEvent.send)
        (xs ++ CorrEvent.resp s.nextId out :: ys)
        = runCorr (stepCorr (runCorr (stepCorr s CorrEvent.send) xs)
          (CorrEvent.resp s.nextId out)) ys := by
      rw [runCorr_append, runCorr_cons]
    obtain ⟨hTok, hId, hKeep⟩ :=
      retired_run _ s.nextToken s.nextId ys hsettle.2.1 hsettle.2.2 hysR
    rw [hrun]
    exact ⟨hKeep.trans hsettle.1, findPending_none_of hId.1⟩
  · have hsettle := settle_fire _ s.nextId s.nextToken s.nextTimer hliveXs
    have hrun : runCorr (stepCorr s CorrEvent.send)
        (xs ++ CorrEvent.fire s.nextTimer :: ys)
        = runCorr (stepCorr (runCorr (stepCorr s CorrEvent.send) xs)
          (CorrEvent.fire s.nextTimer)) ys := by
      rw [runCorr_append, runCorr_cons]
    obtain ⟨hTok, hId, hKeep⟩ :=
      retired_run _ s.nextToken s.nextId ys hsettle.2.1 hsettle.2.2 hysR
    rw [hrun]
    exact ⟨hKeep.trans hsettle.1, findPending_none_of hId.1⟩

/-- Claim C2 witness: from the fresh client, one request (id 1, token 0) and
    its matching successful response settle the promise exactly once with
    the result and clear the table. -/
theorem C2_witness :
    settledFor 0 (runCorr (stepCorr corrInit CorrEvent.send)
        ([] ++ CorrEvent.resp 1 (RespOut.ok 7) :: []))
      = [(0, Outcome.resolved 7)] ∧
    findPending (runCorr (stepCorr corrInit CorrEvent.send)
        ([] ++ CorrEvent.resp 1 (RespOut.ok 7) :: [])).pending 1 = none := by
  exact (C2_theorem corrInit ReachNR.init [] [] (RespOut.ok 7)
    (fun e he => absurd he (List.not_mem_nil e))
    (fun e he => absurd he (List.not_mem_nil e))
    (fun e he => absurd he (List.not_mem_nil e))).1

/- ===================== Claim C3 ======================================== -/

theorem corrGlobalInv_init : CorrGlobalInv corrInit := by
  unfold CorrGlobalInv corrInit
  simp

theorem corrGlobalInv_step (s : CorrState) (e : CorrEvent)
    (h : CorrGlobalInv s) : CorrGlobalInv (stepCorr s e) := by
  obtain ⟨hbound, hpw, habound, hanodup⟩ := h
  cases e with
  | send =>
    have hst : stepCorr s CorrEvent.send =
        { s with
          nextId := s.nextId + 1
          pending := ⟨s.nextId, s.nextToken, s.nextTimer⟩ :: s.pending
          armed := (s.nextTimer, s.nextId, s.nextToken) :: s.armed
          nextToken := s.nextToken + 1
          nextTimer := s.nextTimer + 1
          assigned := (s.gen, s.nextId) :: s.assigned } := rfl
    rw [hst]
    refine ⟨?_, ?_, ?_, ?_⟩
    · intro p hp
      rcases List.mem_cons.mp hp with rfl | hp
      · constructor
        · show s.nextId < s.nextId + 1
          omega
        · show s.nextToken < s.nextToken + 1
          omega
      · obtain ⟨h1, h2⟩ := hbound p hp
        exact ⟨by show p.id < s.nextId + 1; omega,
          by show p.token < s.nextToken + 1; omega⟩
    · refine List.Pairwise.cons ?_ hpw
      intro q hq
      obtain ⟨h1, -⟩ := hbound q hq
      show s.nextId ≠ q.id
      omega
    · intro gi hgi
      rcases List.mem_cons.mp hgi with rfl | hgi
      · right
        exact ⟨rfl, by show s.nextId < s.nextId + 1; omega⟩
      · rcases habound gi hgi with h1 | ⟨h1, h2⟩
        · exact Or.inl h1
        · exact Or.inr ⟨h1, by show gi.2 < s.nextId + 1; omega⟩
    · refine List.nodup_cons.mpr ⟨?_, hanodup⟩
      intro hmem
      rcases habound _ hmem with h1 | ⟨-, h2⟩
      · exact absurd h1 (by show ¬ s.gen < s.gen; omega)
      · exact absurd h2 (by show ¬ s.nextId < s.nextId; omega)
  | resp j out =>
    cases hf : findPending s.pending j with
    | none =>
      have hst : stepCorr s (CorrEvent.resp j out) = s := by
        simp [stepCorr, hf]
      rw [hst]
      exact ⟨hbound, hpw, habound, hanodup⟩
    | some p =>
      have hst : stepCorr s (CorrEvent.resp j out) =
          { s with
            pending := removePending s.pending j
            armed := removeTimer s.armed p.timer
            settled := s.settled ++ [(p.token, outcomeOfResp out)] } := by
        simp [stepCorr, hf]
      rw [hst]
      exact ⟨fun q hq => hbound q (List.mem_of_mem_filter hq), hpw.filter _,
        habound, hanodup⟩
  | fire t =>
    cases hft : findTimer s.armed t with
    | none =>
      have hst : stepCorr s (CorrEvent.fire t) = s := by
        simp [stepCorr, hft]
      rw [hst]
      exact ⟨hbound, hpw, habound, hanodup⟩
    | some ct =>
      cases hfp : findPending s.pending ct.1 with
      | none =>
        have hst : stepCorr s (CorrEvent.fire t) =
            { s with armed := removeTimer s.armed t } := by
          simp [stepCorr, hft, hfp]
        rw [hst]
        exact ⟨hbound, hpw, habound, hanodup⟩
      | some p2 =>
        have hst : stepCorr s (CorrEvent.fire t) =
            { s with
              pending := removePending s.pending ct.1
              armed := removeTimer s.armed t
              settled := s.settled ++ [(ct.2, Outcome.rejectedTimeout)] } := by
          simp [stepCorr, hft, hfp]
        rw [hst]
        exact ⟨fun q hq => hbound q (List.mem_of_mem_filter hq), hpw.filter _,
          habound, hanodup⟩
  | restartReset =>
    refine ⟨?_, ?_, ?_, ?_⟩
    · intro p hp
      simp [stepCorr] at hp
    · show List.Pairwise _ ([] : List PendingCall)
      exact List.Pairwise.nil
    · intro gi hgi
      have hgi2 : gi ∈ s.assigned := hgi
      rcases habound gi hgi2 with h1 | ⟨h1, -⟩
      · left
        show gi.1 < s.gen + 1
        omega
      · left
        show gi.1 < s.gen + 1
        omega
    · exact hanodup

theorem reachCorr_globalInv {s : CorrState} (h : ReachCorr s) :
    CorrGlobalInv s := by
  induction h with
  | init => exact corrGlobalInv_init
  | step s e hs ih => exact corrGlobalInv_step s e ih

/-- Claim C3, counterexample.  Trace: sendRequest (id 1, promise token 0,
    timer 0); restart (table discarded, `nextId` reset, timer 0 left armed);
    sendRequest again (id 1 reused, promise token 1, timer 1).  Before the
    old timer fires the new call is pending; when the pre-restart timer 0
    fires, it REMOVES the post-restart PendingCall for id 1 and rejects the
    pre-restart promise with a timeout — contradicting the claim that no
    action stemming from a pre-restart request removes or settles the
    PendingCall of a post-restart request with the same id.  The post-restart
    promise then never settles: its response is ignored and its own timer
    finds nothing. -/
theorem C3_counterexample :
    (findPending (runCorr corrInit
        [CorrEvent.send, CorrEvent.restartReset, CorrEvent.send]).pending 1
      = some ⟨1, 1, 1⟩) ∧
    (findPending (runCorr corrInit
        [CorrEvent.send, CorrEvent.restartReset, CorrEvent.send,
         CorrEvent.fire 0]).pending 1 = none) ∧
    settledFor 0 (runCorr corrInit
        [CorrEvent.send, CorrEvent.restartReset, CorrEvent.send,
         CorrEvent.fire 0]) = [(0, Outcome.rejectedTimeout)] ∧
    settledFor 1 (runCorr corrInit
        [CorrEvent.send, CorrEvent.restartReset, CorrEvent.send,
         CorrEvent.fire 0, CorrEvent.resp 1 (RespOut.ok 7),
         CorrEvent.fire 1]) = [] := by
  decide

/-- Claim C3, amended.  In every reachable state there is at most one
    PendingCall per id, and (generation, id) assignments are never repeated —
    ids are not reused while the same process instance is alive, though they
    ARE reused after a restart resets the counter.  Restart discards the
    pending table wholesale without settling any promise and leaves armed
    timers armed.  Consequently a still-armed pre-restart timer that fires
    while its captured id names a post-restart PendingCall removes that call
    and rejects the pre-restart promise with a timeout error. -/
theorem C3_amended_theorem :
    (∀ s : CorrState, ReachCorr s →
      List.Pairwise (fun p q => p.id ≠ q.id) s.pending) ∧
    (∀ s : CorrState, ReachCorr s → s.assigned.Nodup) ∧
    (∀ s : CorrState,
      (stepCorr s CorrEvent.restartReset).pending = [] ∧
      (stepCorr s CorrEvent.restartReset).settled = s.settled ∧
      (stepCorr s CorrEvent.restartReset).armed = s.armed ∧
      (stepCorr s CorrEvent.restartReset).nextId = 1) ∧
    (∀ (s : CorrState) (t : Nat) (ct : Nat × Nat) (p : PendingCall),
      findTimer s.armed t = some ct → findPending s.pending ct.1 = some p →
      (stepCorr s (CorrEvent.fire t)).pending = removePending s.pending ct.1 ∧
      (stepCorr s (CorrEvent.fire t)).settled
        = s.settled ++ [(ct.2, Outcome.rejectedTimeout)]) := by
  refine ⟨?_, ?_, ?_, ?_⟩
  · intro s hs
    exact (reachCorr_globalInv hs).2.1
  · intro s hs
    exact (reachCorr_globalInv hs).2.2.2
  · intro s
    exact ⟨rfl, rfl, rfl, rfl⟩
  · intro s t ct p hft hfp
    constructor <;> simp [stepCorr, hft, hfp]

/-- Claim C3 witness: two requests in a row carry distinct ids, and a
    pre-restart timer firing on the post-restart state appends exactly the
    pre-restart promise's timeout rejection. -/
theorem C3_witness :
    List.Pairwise (fun p q => p.id ≠ q.id)
      (stepCorr (stepCorr corrInit CorrEvent.send) CorrEvent.send).pending ∧
    (stepCorr (stepCorr (stepCorr (stepCorr corrInit CorrEvent.send)
        CorrEvent.restartReset) CorrEvent.send) (CorrEvent.fire 0)).settled
      = (stepCorr (stepCorr (stepCorr corrInit CorrEvent.send)
          CorrEvent.restartReset) CorrEvent.send).settled
        ++ [(0, Outcome.rejectedTimeout)] := by
  refine ⟨C3_amended_theorem.1 _
    (ReachCorr.step _ _ (ReachCorr.step _ _ ReachCorr.init)), ?_⟩
  exact (C3_amended_theorem.2.2.2 _ 0 (1, 0) ⟨1, 1, 1⟩
    (by decide) (by decide)).2

/- ===================== Association-list lemmas ========================= -/

theorem mem_sadd_self [DecidableEq α] (x : α) (s : List α) : x ∈ sadd x s := by
  unfold sadd
  by_cases h : x ∈ s
  · simp [h]
  · simp [h]

theorem mem_sadd_iff [DecidableEq α] (x y : α) (s : List α) :
    y ∈ sadd x s ↔ y ∈ s ∨ y = x := by
  unfold sadd
  by_cases h : x ∈ s
  · simp only [if_pos h]
    constructor
    · exact Or.inl
    · rintro (hy | rfl)
      · exact hy
      · exact h
  · simp [if_neg h]

theorem mem_sdel_iff [DecidableEq α] (x y : α) (s : List α) :
    y ∈ sdel x s ↔ y ∈ s ∧ y ≠ x := by
  unfold sdel
  rw [List.mem_filter]
  simp

theorem alookup_aset_self [DecidableEq κ] (k : κ) (v : β) :
    ∀ m : List (κ × β), alookup k (aset k v m) = some v := by
  intro m
  induction m with
  | nil => simp [aset, alookup]
  | cons kv rest ih =>
    obtain ⟨k2, v2⟩ := kv
    by_cases h : k2 = k
    · simp [aset, alookup, h]
    · simp [aset, alookup, h, ih]

theorem alookup_aset_ne [DecidableEq κ] (k k2 : κ) (v : β) (hne : k2 ≠ k) :
    ∀ m : List (κ × β), alookup k2 (aset k v m) = alookup k2 m := by
  have hkk2 : ¬ k = k2 := fun hh => hne hh.symm
  intro m
  induction m with
  | nil => simp [aset, alookup, hkk2]
  | cons kv rest ih =>
    obtain ⟨k3, v3⟩ := kv
    by_cases h : k3 = k
    · subst h
      simp [aset, alookup, hkk2]
    · simp only [aset, if_neg h]
      by_cases h2 : k3 = k2
      · simp [alookup, h2]
      · simp [alookup, h2, ih]

theorem aerase_sublist [DecidableEq κ] (k : κ) :
    ∀ m : List (κ × β), (aerase k m).Sublist m := by
  intro m
  induction m with
  | nil => simp [aerase]
  | cons kv rest ih =>
    obtain ⟨k2, v2⟩ := kv
    by_cases h : k2 = k
    · simp only [aerase, if_pos h]
      exact List.sublist_cons_self _ _
    · simp only [aerase, if_neg h]
      exact ih.cons₂ _

theorem keys_aset [DecidableEq κ] (k : κ) (v : β) :
    ∀ m : List (κ × β), (aset k v m).map Prod.fst =
      if k ∈ m.map Prod.fst then m.map Prod.fst else m.map Prod.fst ++ [k] := by
  intro m
  induction m with
  | nil => simp [aset]
  | cons kv rest ih =>
    obtain ⟨k2, v2⟩ := kv
    by_cases h : k2 = k
    · subst h
      simp [aset]
    · have hkk2 : ¬ k = k2 := fun hh => h hh.symm
      simp only [aset, if_neg h, List.map_cons]
      rw [ih]
      by_cases h2 : k ∈ rest.map Prod.fst
      · simp [h2, hkk2]
      · simp only [h2, if_false]
        have hnk : ¬ (k = k2 ∨ k ∈ rest.map Prod.fst) := by
          rintro (rfl | hk)
          · exact h rfl
          · exact h2 hk
        simp [List.mem_cons, hnk, h2, hkk2]

theorem keys_aset_nodup [DecidableEq κ] (k : κ) (v : β) (m : List (κ × β))
    (hnd : (m.map Prod.fst).Nodup) : ((aset k v m).map Prod.fst).Nodup := by
  rw [keys_aset]
  by_cases h : k ∈ m.map Prod.fst
  · simpa [h] using hnd
  · simp only [h, if_false]
    rw [List.nodup_append]
    exact ⟨hnd, List.nodup_singleton k, by simpa using h⟩

theorem keys_aerase_nodup [DecidableEq κ] (k : κ) (m : List (κ × β))
    (hnd : (m.map Prod.fst).Nodup) : ((aerase k m).map Prod.fst).Nodup :=
  ((aerase_sublist k m).map Prod.fst).nodup hnd

theorem alookup_isSome_iff_mem_keys [DecidableEq κ] (k : κ) :
    ∀ m : List (κ × β), (alookup k m).isSome ↔ k ∈ m.map Prod.fst := by
  intro m
  induction m with
  | nil => simp [alookup]
  | cons kv rest ih =>
    obtain ⟨k2, v2⟩ := kv
    by_cases h : k2 = k
    · simp [alookup, h]
    · have hkk2 : ¬ k = k2 := fun hh => h hh.symm
      simp [alookup, h, ih, hkk2]

theorem alookup_aerase_self [DecidableEq κ] (k : κ) :
    ∀ m : List (κ × β), (m.map Prod.fst).Nodup → alookup k (aerase k m) = none := by
  intro m
  induction m with
  | nil => intro _; rfl
  | cons kv rest ih =>
    intro hnd
    obtain ⟨k2, v2⟩ := kv
    simp only [List.map_cons, List.nodup_cons] at hnd
    by_cases h : k2 = k
    · subst h
      have he : aerase k2 ((k2, v2) :: rest) = rest := by
        simp [aerase]
      rw [he]
      cases hl : alookup k2 rest with
      | none => rfl
      | some v3 =>
        exfalso
        have hk : k2 ∈ rest.map Prod.fst := by
          rw [← alookup_isSome_iff_mem_keys]
          simp [hl]
        exact hnd.1 hk
    · simp only [aerase, if_neg h, alookup, if_neg h]
      exact ih hnd.2

theorem alookup_aerase_ne [DecidableEq κ] (k k2 : κ) (hne : k2 ≠ k) :
    ∀ m : List (κ × β), alookup k2 (aerase k m) = alookup k2 m := by
  intro m
  induction m with
  | nil => rfl
  | cons kv rest ih =>
    obtain ⟨k3, v3⟩ := kv
    by_cases h : k3 = k
    · subst h
      have he : aerase k3 ((k3, v3) :: rest) = rest := by
        simp [aerase]
      have hne2 : ¬ k3 = k2 := fun hh => hne hh.symm
      rw [he]
      simp [alookup, hne2]
    · simp only [aerase, if_neg h]
      by_cases h2 : k3 = k2
      · simp [alookup, h2]
      · simp [alookup, h2, ih]

theorem aset_filter_key [DecidableEq κ] (k : κ) (v : β) :
    ∀ m : List (κ × β), (m.map Prod.fst).Nodup →
      (aset k v m).filter (fun p => p.1 = k) = [(k, v)] := by
  intro m
  induction m with
  | nil => simp [aset]
  | cons kv rest ih =>
    intro hnd
    obtain ⟨k2, v2⟩ := kv
    simp only [List.map_cons, List.nodup_cons] at hnd
    by_cases h : k2 = k
    · subst h
      have he : aset k2 v ((k2, v2) :: rest) = (k2, v) :: rest := by
        simp [aset]
      rw [he, List.filter_cons_of_pos (by simp)]
      have hrest : rest.filter (fun p => decide (p.1 = k2)) = [] := by
        refine List.filter_eq_nil_iff.mpr ?_
        intro p hp
        simp only [decide_eq_true_eq]
        intro hpk
        exact hnd.1 (hpk ▸ List.mem_map_of_mem Prod.fst hp)
      rw [hrest]
    · simp only [aset, if_neg h]
      rw [List.filter_cons_of_neg (by simpa using h), ih hnd.2]

theorem alookup_head_isSome [DecidableEq κ] (k : κ) (v : β)
    (rest : List (κ × β)) : (alookup k ((k, v) :: rest)).isSome := by
  simp [alookup]

/- ===================== Claim C10 ======================================= -/

/-- Claim C10: calling initialize when the client is already Initialized
    returns immediately (line 293): no request, no notification, no state
    change. -/
theorem C10_theorem (s : DocState) (rootDir : String) (oracle : RespOut)
    (h : s.inited = true) :
    initializeClient s rootDir oracle = (s, [], Except.ok ()) := by
  simp [initializeClient, h]

/-- Claim C10 witness: on a concrete initialized client. -/
theorem C10_witness :
    initializeClient docA "." (RespOut.ok 0) = (docA, [], Except.ok ()) :=
  C10_theorem docA "." (RespOut.ok 0) (by decide)

/- ===================== Claim C4 ======================================== -/

/-- Claim C4, counterexample.  On an initialized client whose shutdown
    request fails (oracle rejects), shutdown still returns success — the
    catch at lines 573-575 swallows the error instead of propagating it —
    and the initialized flag is left `true`: the caller cannot know the
    state change did not occur. -/
theorem C4_counterexample :
    docA.inited = true ∧
    (shutdown docA (RespOut.err 3)).2.2 = Except.ok () ∧
    (shutdown docA (RespOut.err 3)).1.inited = true ∧
    (shutdown docA (RespOut.err 3)).1.openedDocuments = ["file:///a.txt"] :=
  ⟨rfl, rfl, rfl, rfl⟩

/-- Claim C4, amended.  shutdown is a no-op when not Initialized.  When
    Initialized (process started): on success it clears the subscribers,
    writes a didClose for every open document, the shutdown request and then
    the exit notification, clears the open-document set and resets the flag
    (the version map is untouched); on failure of the awaited request the
    error is caught and logged, NOT rethrown — shutdown still returns
    success, with the flag still set and the open-document set intact
    (subscribers already cleared and the didClose notifications already
    written). -/
theorem C4_amended_theorem (s : DocState) (oracle : RespOut) :
    (s.inited = false → shutdown s oracle = (s, [], Except.ok ())) ∧
    (s.inited = true → s.processStarted = true →
      (∀ e, oracle = RespOut.err e →
        shutdown s oracle
          = (clearDiagnosticSubscribers s,
             s.openedDocuments.map (fun u => Wire.notifDidClose u)
               ++ [Wire.reqShutdown],
             Except.ok ())) ∧
      (∀ v, oracle = RespOut.ok v →
        shutdown s oracle
          = ({ clearDiagnosticSubscribers s with
                inited := false, openedDocuments := [] },
             s.openedDocuments.map (fun u => Wire.notifDidClose u)
               ++ [Wire.reqShutdown] ++ [Wire.notifExit],
             Except.ok ()))) := by
  constructor
  · intro h
    simp [shutdown, h]
  · intro h hp
    constructor
    · intro e he
      subst he
      simp [shutdown, h, hp]
    · intro v hv
      subst hv
      simp [shutdown, h, hp, clearDiagnosticSubscribers]

/-- Claim C4 witness: the successful path on a concrete initialized client
    with one open document. -/
theorem C4_witness :
    shutdown docA (RespOut.ok 0)
      = ({ clearDiagnosticSubscribers docA with
            inited := false, openedDocuments := [] },
         docA.openedDocuments.map (fun u => Wire.notifDidClose u)
           ++ [Wire.reqShutdown] ++ [Wire.notifExit],
         Except.ok ()) :=
  ((C4_amended_theorem docA (RespOut.ok 0)).2 (by decide) (by decide)).2 0 rfl

/- ===================== Claim C5 ======================================== -/

/-- Claim C5, counterexample.  The open-set/version-map invariant holds on
    `docA`; a successful shutdown empties the open-document set but leaves
    the version map untouched (line 571 clears only `openedDocuments`), so
    the invariant is broken afterwards: the uri has a version entry but is
    not in the open set. -/
theorem C5_counterexample :
    DocInv docA ∧
    (shutdown docA (RespOut.ok 0)).1.openedDocuments = [] ∧
    alookup "file:///a.txt"
      (shutdown docA (RespOut.ok 0)).1.documentVersions = some 1 ∧
    ¬ DocInv (shutdown docA (RespOut.ok 0)).1 := by
  refine ⟨?_, by decide, by decide, ?_⟩
  · intro u
    by_cases hu : u = "file:///a.txt"
    · subst hu
      simp [docA, alookup]
    · have hu2 : ¬ "file:///a.txt" = u := fun hh => hu hh.symm
      simp [docA, alookup, hu, hu2]
  · intro h
    have h2 := (h "file:///a.txt").mpr (by decide)
    have h3 : (shutdown docA (RespOut.ok 0)).1.openedDocuments = [] := by decide
    rw [h3] at h2
    exact absurd h2 (List.not_mem_nil _)

/-- Claim C5, amended.  openDocument, closeDocument and restart preserve the
    invariant that a uri is in the open set iff a version entry exists (with
    uniquely-keyed version entries, as the operations maintain); shutdown
    does NOT preserve it: it leaves the version map untouched on every path
    and on success empties the open set, so the invariant survives a
    successful shutdown only when no version entries existed. -/
theorem C5_amended_theorem (s : DocState) (hinv : DocInv s)
    (hnd : (s.documentVersions.map Prod.fst).Nodup) :
    (∀ uri text lang s2 w, openDocument s uri text lang = .ok (s2, w) →
      DocInv s2 ∧ (s2.documentVersions.map Prod.fst).Nodup) ∧
    (∀ uri s2 w, closeDocument s uri = .ok (s2, w) →
      DocInv s2 ∧ (s2.documentVersions.map Prod.fst).Nodup) ∧
    (∀ rootDir so io, DocInv (restart s rootDir so io).1) ∧
    (∀ oracle, (shutdown s oracle).1.documentVersions = s.documentVersions ∧
      (s.inited = true → s.processStarted = true → ∀ v, oracle = RespOut.ok v →
        (shutdown s oracle).1.openedDocuments = [])) := by
  refine ⟨?_, ?_, ?_, ?_⟩
  · intro uri text lang s2 w hok
    by_cases hinit : s.inited = false
    · simp [openDocument, hinit] at hok
    · simp only [openDocument, hinit, if_false] at hok
      rw [Bool.not_eq_false] at hinit
      by_cases hmem : uri ∈ s.openedDocuments
      · simp only [if_pos hmem] at hok
        obtain ⟨rfl, -⟩ := Prod.mk.injEq .. ▸ (Except.ok.injEq .. ▸ hok)
        constructor
        · intro u
          by_cases hu : u = uri
          · subst hu
            simp only [alookup_aset_self]
            simpa using hmem
          · rw [show (alookup u (aset uri _ s.documentVersions))
                = alookup u s.documentVersions
              from alookup_aset_ne uri u _ hu s.documentVersions]
            exact hinv u
        · exact keys_aset_nodup _ _ _ hnd
      · simp only [if_neg hmem] at hok
        obtain ⟨rfl, -⟩ := Prod.mk.injEq .. ▸ (Except.ok.injEq .. ▸ hok)
        constructor
        · intro u
          by_cases hu : u = uri
          · subst hu
            simp only [alookup_aset_self]
            simp [mem_sadd_self]
          · rw [show (alookup u (aset uri 1 s.documentVersions))
                = alookup u s.documentVersions
              from alookup_aset_ne uri u 1 hu s.documentVersions]
            rw [show (u ∈ sadd uri s.openedDocuments)
                = (u ∈ s.openedDocuments ∨ u = uri)
              from propext (mem_sadd_iff uri u s.openedDocuments)]
            constructor
            · rintro (hu2 | rfl)
              · exact (hinv u).mp hu2
              · exact absurd rfl hu
            · intro hu2
              exact Or.inl ((hinv u).mpr hu2)
        · exact keys_aset_nodup _ _ _ hnd
  · intro uri s2 w hok
    by_cases hinit : s.inited = false
    · simp [closeDocument, hinit] at hok
    · simp only [closeDocument, hinit, if_false] at hok
      by_cases hmem : uri ∈ s.openedDocuments
      · simp only [if_pos hmem] at hok
        obtain ⟨rfl, -⟩ := Prod.mk.injEq .. ▸ (Except.ok.injEq .. ▸ hok)
        constructor
        · intro u
          by_cases hu : u = uri
          · subst hu
            rw [show (alookup u (aerase u s.documentVersions))
                = none from alookup_aerase_self u s.documentVersions hnd]
            simp [mem_sdel_iff]
          · rw [show (alookup u (aerase uri s.documentVersions))
                = alookup u s.documentVersions
              from alookup_aerase_ne uri u hu s.documentVersions]
            rw [show (u ∈ sdel uri s.openedDocuments)
                = (u ∈ s.openedDocuments ∧ u ≠ uri)
              from propext (mem_sdel_iff uri u s.openedDocuments)]
            constructor
            · intro hu2
              exact (hinv u).mp hu2.1
            · intro hu2
              exact ⟨(hinv u).mpr hu2, hu⟩
        · exact keys_aerase_nodup _ _ hnd
      · simp only [if_neg hmem] at hok
        obtain ⟨rfl, -⟩ := Prod.mk.injEq .. ▸ (Except.ok.injEq .. ▸ hok)
        exact ⟨hinv, hnd⟩
  · intro rootDir so io
    intro u
    cases rootDir with
    | none => simp [restart, alookup]
    | some r =>
      cases io with
      | ok v => simp [restart, initializeClient, alookup]
      | err e => simp [restart, initializeClient, alookup]
  · intro oracle
    constructor
    · by_cases hinit : s.inited = false
      · simp [shutdown, hinit]
      · by_cases hp : s.processStarted = true
        · cases oracle with
          | ok v => simp [shutdown, hinit, hp, clearDiagnosticSubscribers]
          | err e => simp [shutdown, hinit, hp, clearDiagnosticSubscribers]
        · simp [shutdown, hinit, hp, clearDiagnosticSubscribers]
    · intro hinit hp v hv
      subst hv
      simp [shutdown, hinit, hp, clearDiagnosticSubscribers]

/-- The open-set invariant holds on the concrete state `docA`. -/
theorem docA_inv : DocInv docA := by
  intro u
  by_cases hu : u = "file:///a.txt"
  · subst hu
    simp [docA, alookup]
  · have hu2 : ¬ "file:///a.txt" = u := fun hh => hu hh.symm
    simp [docA, alookup, hu, hu2]

/-- Claim C5 witness: the amended invariant applied to a concrete open on
    the initialized client. -/
theorem C5_witness :
    openDocument docA "file:///b.txt" "x" "plaintext"
      = .ok (docB, [Wire.notifDidOpen "file:///b.txt" "x" "plaintext" 1]) ∧
    DocInv docB ∧ (docB.documentVersions.map Prod.fst).Nodup :=
  ⟨rfl, (C5_amended_theorem docA docA_inv (by decide)).1 "file:///b.txt" "x"
    "plaintext" docB [Wire.notifDidOpen "file:///b.txt" "x" "plaintext" 1] rfl⟩

/- ===================== Claim C6 ======================================== -/

/-- Claim C6: in the Initialized state, opening a uri not currently open and
    then opening it again N times tracks version 1 + N internally; the first
    call emits didOpen with version 1 and each later call emits didChange with
    the full replacement text and versions 2, 3, ..., 1 + N (lines 352-362,
    371-380). -/
theorem C6_theorem (s : DocState) (uri lang : String) (texts : Nat → String)
    (hinit : s.inited = true) (hp : s.processStarted = true)
    (hmem : uri ∉ s.openedDocuments) (N : Nat) :
    ∃ s2, openLoop s uri lang texts N
        = .ok (s2, Wire.notifDidOpen uri (texts 0) lang 1
            :: (List.range N).map
                (fun k => Wire.notifDidChange uri (texts (k + 1)) (k + 2))) ∧
      alookup uri s2.documentVersions = some (N + 1) ∧
      uri ∈ s2.openedDocuments ∧ s2.inited = true ∧
      s2.processStarted = true := by
  induction N with
  | zero =>
    refine ⟨{ s with openedDocuments := sadd uri s.openedDocuments,
                     documentVersions := aset uri 1 s.documentVersions },
            ?_, ?_, ?_, hinit, hp⟩
    · have hni : ¬ s.inited = false := by simp [hinit]
      simp [openLoop, openDocument, hni, hmem, emitNotif, hp]
    · exact alookup_aset_self uri 1 s.documentVersions
    · exact mem_sadd_self uri s.openedDocuments
  | succ n ih =>
    obtain ⟨s2, hrun, hv, hm, hi, hps⟩ := ih
    refine ⟨{ s2 with
              documentVersions := aset uri (n + 2) s2.documentVersions },
            ?_, ?_, hm, hi, hps⟩
    · have hni : ¬ s2.inited = false := by simp [hi]
      have hopen : openDocument s2 uri (texts (n + 1)) lang
          = .ok ({ s2 with
                    documentVersions := aset uri (n + 2) s2.documentVersions },
                 [Wire.notifDidChange uri (texts (n + 1)) (n + 2)]) := by
        simp [openDocument, hni, hm, hv, emitNotif, hps]
      simp only [openLoop, hrun, hopen]
      rw [List.range_succ]
      simp
    · exact alookup_aset_self uri (n + 2) s2.documentVersions

/-- Claim C6 witness: two re-opens of a fresh uri on a concrete initialized
    client track version 3 and emit didOpen 1, didChange 2, didChange 3. -/
theorem C6_witness :
    ∃ s2, openLoop docDiag "file:///a.txt" "plaintext" (fun _ => "t") 2
        = .ok (s2, Wire.notifDidOpen "file:///a.txt" "t" "plaintext" 1
            :: (List.range 2).map
                (fun k => Wire.notifDidChange "file:///a.txt" "t" (k + 2))) ∧
      alookup "file:///a.txt" s2.documentVersions = some 3 ∧
      "file:///a.txt" ∈ s2.openedDocuments ∧ s2.inited = true ∧
      s2.processStarted = true :=
  C6_theorem docDiag "file:///a.txt" "plaintext" (fun _ => "t")
    (by decide) (by decide) (by decide) 2

/- ===================== Claim C7 ======================================== -/

/-- When the callback throws on no stored pair, the catch-up loop delivers
    every pair and no exception escapes. -/
theorem deliverAll_no_throw (cbThrows : Nat → String → List Diag → Bool)
    (cb : Nat) :
    ∀ l : List (String × List Diag),
      (∀ p ∈ l, cbThrows cb p.1 p.2 = false) →
      deliverAll cbThrows cb l = (l, false) := by
  intro l
  induction l with
  | nil => intro _; rfl
  | cons hd tl ih =>
    intro h
    obtain ⟨u, d⟩ := hd
    have h1 : cbThrows cb u d = false := h (u, d) (List.mem_cons_self _ _)
    have h2 := ih (fun p hp => h p (List.mem_cons_of_mem _ hp))
    simp [deliverAll, h1, h2]

/-- Claim C7, counterexample.  The synchronous catch-up loop of
    subscribeToDiagnostics (lines 436-438) is NOT wrapped in try/catch: a
    callback that throws during catch-up propagates the exception to the
    caller of subscribeToDiagnostics, unlike the guarded dispatch loop of
    notifyDiagnosticUpdate (lines 449-453). -/
theorem C7_counterexample :
    (subscribeToDiagnostics cbAlwaysThrows docDiag 5).2.2 = true ∧
    (subscribeToDiagnostics cbAlwaysThrows docDiag 5).2.1
      = [("file:///a.txt", [5])] :=
  ⟨rfl, rfl⟩

/-- Claim C7, amended.  subscribeToDiagnostics adds the callback to the
    subscriber set and synchronously delivers every stored (uri, diagnostics)
    pair to it, and throws raised inside the guarded dispatch loop of
    notifyDiagnosticUpdate are contained: every subscriber is invoked exactly
    once regardless of other subscribers throwing.  BUT the catch-up loop
    inside subscribeToDiagnostics itself is unguarded, so the containment
    guarantee holds only when the new callback does not throw during
    catch-up. -/
theorem C7_amended_theorem (cbThrows : Nat → String → List Diag → Bool)
    (s : DocState) (cb : Nat)
    (hnt : ∀ p ∈ s.documentDiagnostics, cbThrows cb p.1 p.2 = false) :
    subscribeToDiagnostics cbThrows s cb
      = ({ s with diagnosticSubscribers := sadd cb s.diagnosticSubscribers },
         s.documentDiagnostics, false) ∧
    (∀ uri d, ∀ c ∈ s.diagnosticSubscribers,
      (c, cbThrows c uri d) ∈ notifyDiagnosticUpdate cbThrows s uri d) := by
  constructor
  · have h := deliverAll_no_throw cbThrows cb s.documentDiagnostics hnt
    simp [subscribeToDiagnostics, h]
  · intro uri d c hc
    simp only [notifyDiagnosticUpdate]
    exact List.mem_map_of_mem _ hc

/-- Claim C7 witness: a never-throwing callback subscribing to a concrete
    client with one stored record is caught up with that record and no
    exception escapes. -/
theorem C7_witness :
    subscribeToDiagnostics cbNeverThrows docDiag 5
      = ({ docDiag with
            diagnosticSubscribers := sadd 5 docDiag.diagnosticSubscribers },
         docDiag.documentDiagnostics, false) ∧
    (∀ uri d, ∀ c ∈ docDiag.diagnosticSubscribers,
      (c, cbNeverThrows c uri d)
        ∈ notifyDiagnosticUpdate cbNeverThrows docDiag uri d) :=
  C7_amended_theorem cbNeverThrows docDiag 5 (fun _ _ => rfl)

/- ===================== Claim C8 ======================================== -/

/-- Claim C8: publishing diagnostics for a uri twice leaves only the second
    set in the store (line 168 replaces, never merges), so getDiagnostics
    returns exactly the second set and a subscriber added after both
    publishes is caught up with exactly one record for that uri carrying the
    second set; getDiagnostics on an absent uri returns the empty list and
    getAllDiagnostics on an empty store returns the empty mapping, never an
    error (lines 422-429). -/
theorem C8_theorem (cbThrows : Nat → String → List Diag → Bool)
    (s : DocState) (u : String) (d1 d2 : List Diag) (cb : Nat)
    (hu : u ≠ "") (hnd : (s.documentDiagnostics.map Prod.fst).Nodup)
    (hnt : ∀ p ∈ (aset u d2 (aset u d1 s.documentDiagnostics) :
        List (String × List Diag)), cbThrows cb p.1 p.2 = false) :
    getDiagnostics (handlePublishDiagnostics cbThrows
        (handlePublishDiagnostics cbThrows s u d1).1 u d2).1 u = d2 ∧
    ((subscribeToDiagnostics cbThrows
        (handlePublishDiagnostics cbThrows
          (handlePublishDiagnostics cbThrows s u d1).1 u d2).1 cb).2.1.filter
        (fun p => p.1 = u)) = [(u, d2)] ∧
    (∀ v, alookup v s.documentDiagnostics = none → getDiagnostics s v = []) ∧
    (s.documentDiagnostics = [] → getAllDiagnostics s = []) := by
  have e1 : (handlePublishDiagnostics cbThrows s u d1).1
      = { s with documentDiagnostics := aset u d1 s.documentDiagnostics } := by
    simp [handlePublishDiagnostics, hu]
  have e2 : (handlePublishDiagnostics cbThrows
        { s with documentDiagnostics := aset u d1 s.documentDiagnostics }
        u d2).1
      = { s with documentDiagnostics
            := aset u d2 (aset u d1 s.documentDiagnostics) } := by
    simp [handlePublishDiagnostics, hu]
  rw [e1, e2]
  refine ⟨?_, ?_, ?_, ?_⟩
  · simp [getDiagnostics, alookup_aset_self]
  · have hdel := deliverAll_no_throw cbThrows cb
      (aset u d2 (aset u d1 s.documentDiagnostics)) hnt
    simp only [subscribeToDiagnostics, hdel]
    exact aset_filter_key u d2 (aset u d1 s.documentDiagnostics)
      (keys_aset_nodup u d1 s.documentDiagnostics hnd)
  · intro v hv
    simp [getDiagnostics, hv]
  · intro h
    simp [getAllDiagnostics, h]

/-- Claim C8 witness: two publishes for the stored uri of a concrete client,
    then a subscription by a never-throwing callback. -/
theorem C8_witness :
    getDiagnostics (handlePublishDiagnostics cbNeverThrows
        (handlePublishDiagnostics cbNeverThrows docDiag "file:///a.txt"
          [7]).1 "file:///a.txt" [9]).1 "file:///a.txt" = [9] ∧
    ((subscribeToDiagnostics cbNeverThrows
        (handlePublishDiagnostics cbNeverThrows
          (handlePublishDiagnostics cbNeverThrows docDiag "file:///a.txt"
            [7]).1 "file:///a.txt" [9]).1 3).2.1.filter
        (fun p => p.1 = "file:///a.txt")) = [("file:///a.txt", [9])] ∧
    (∀ v, alookup v docDiag.documentDiagnostics = none →
      getDiagnostics docDiag v = []) ∧
    (docDiag.documentDiagnostics = [] → getAllDiagnostics docDiag = []) :=
  C8_theorem cbNeverThrows docDiag "file:///a.txt" [7] [9] 3
    (by decide) (by decide) (fun _ _ => rfl)

end LspMcp
